import Mathlib

set_option maxRecDepth 100000

/-!
Shallow embedding of the gzip/DEFLATE decompressor (crates `bit_reader`,
`huffman_coding`, `tracking_writer`, `deflate`, `gzip`, `lib`).

Bytes and machine integers are modelled as `Nat`, with explicit masking
(`% 2^w`) exactly where the Rust code's fixed-width arithmetic wraps or
masks.  Fallible Rust code (`io::Result`, `anyhow::Result`) is modelled
with `Except Err`.  Loops whose iteration count is not structural are
given an explicit fuel parameter that provably (or, on the concrete
inputs used, evidently) exceeds the number of iterations; exhausting it
yields the distinguished error `Err.outOfFuel`, which never occurs in the
runs reasoned about below.
-/

/-- Error outcomes of the embedded code.  Each constructor corresponds to a
distinct `bail!`/`ensure!`/`io::Error` site in the source. -/
inductive Err where
  /-- Models `io::ErrorKind::UnexpectedEof` from `read_u8` and friends. -/
  | eof
  /-- fuel exhaustion of the embedding (never reached in the runs below). -/
  | outOfFuel
  /-- Models `bail!("Unable to decode TreeCodeToken")` / `LitLetToken` / `DistanceToken`:
  a symbol index outside its alphabet. -/
  | invalidToken
  /-- Models `context("Unable to find largest code length")`: empty length vector. -/
  | emptyLengths
  /-- Models `bail!("Unable to read symbol")`. -/
  | unableToReadSymbol
  /-- Models `context("Trying to repeat empty buffer")`. -/
  | repeatEmpty
  /-- Models `bail!("Invalid compression type!")`. -/
  | invalidCompressionType
  /-- Models `bail!("unsupported block type")`. -/
  | reservedBlockType
  /-- Models `ensure!(len == !not_len, "nlen check failed")`. -/
  | nlenMismatch
  /-- Models `io::ErrorKind::WriteZero` from `write_all` when the sink accepts 0 bytes. -/
  | writeZero
  /-- Models `ensure!(id1 == ID1 && id2 == ID2, "wrong id values")`. -/
  | wrongId
  /-- Models `ensure!(read_len == len, "Not enough bytes for extra fields")`. -/
  | extraTooShort
  /-- Models `String::from_utf8` failure on the FNAME / FCOMMENT bytes. -/
  | invalidUtf8
  /-- Models `ensure!(header.crc16() == crc, "header crc16 check failed")`. -/
  | headerCrcMismatch
  /-- Models `ensure!(writer.byte_count() == footer.data_size as usize, "length check failed")`. -/
  | lengthCheckFailed
  /-- Models `ensure!(writer.crc32() == footer.data_crc32, "crc32 check failed")`. -/
  | crcCheckFailed
  /-- Models `unreachable!()` in the `RepeatZero` arms (impossible for tokens produced
  by `TreeCodeToken::try_from`). -/
  | unreachableBranch
  /-- Models `ensure!(dist <= self.byte_n, "Trying to go back in time")`. -/
  | backInTime
  /-- Models `ensure!(dist <= HISTORY_SIZE, "Trying to rewrite to much history")`. -/
  | tooMuchHistory
  /-- the `VecDeque` index panic in `write_previous` (process abort, not `Err`). -/
  | indexPanicked
  /-- Models `bail!("invalid length base!")`. -/
  | invalidLengthBase
  /-- Models `bail!("invalid distance base!")`. -/
  | invalidDistanceBase
  deriving DecidableEq

/-! ## bit_reader.rs -/

/-- Models `BitSequence { bits: u16, len: u8 }`. -/
structure BitSequence where
  bits : Nat
  len : Nat
  deriving DecidableEq

namespace BitSequence

/-- Models `BitSequence::new`: `bits & ((1 << len) - 1)` masks to the low `len` bits. -/
def new (bits len : Nat) : BitSequence :=
  ⟨bits % 2 ^ len, len⟩

/-- Models `BitSequence::concat`: `self.bits | (other.bits << self.len)`, lengths add.
All call sites keep the total length ≤ 16, so the `u16` arithmetic never wraps. -/
def concat (s o : BitSequence) : BitSequence :=
  ⟨s.bits ||| (o.bits <<< s.len), s.len + o.len⟩

end BitSequence

/-- State of `BitReader<T>`: the unread byte stream, the partially consumed
`buffer` byte and the count `len` of valid low-order bits in it. -/
structure BitReaderState where
  stream : List Nat
  buffer : Nat
  len : Nat
  deriving DecidableEq

namespace BitReaderState

/-- Models `stream.read_u8()`: pop one byte or fail with EOF. -/
def read_u8 (s : List Nat) : Except Err (Nat × List Nat) :=
  match s with
  | [] => .error .eof
  | b :: rest => .ok (b, rest)

/-- One-to-one image of the `while len > 0` loop of `BitReader::read_bits`.
`fuel` bounds the number of iterations; `read_bits` passes `len + 2`, which
suffices because the first iteration refills the buffer (making `self.len = 8`)
and every later iteration strictly decreases the remaining `len`.
`overflowing_shr` on `u8` masks its shift amount modulo 8. -/
def read_bits_aux : Nat → BitSequence → Nat → BitReaderState → Except Err (BitSequence × BitReaderState)
  | 0, _, _, _ => .error .outOfFuel
  | _ + 1, ans, 0, s => .ok (ans, s)
  | fuel + 1, ans, len + 1, s =>
    if s.len < len + 1 then
      match read_u8 s.stream with
      | .error e => .error e
      | .ok (b, rest) =>
        read_bits_aux fuel (ans.concat (BitSequence.new s.buffer s.len))
          (len + 1 - s.len) ⟨rest, b, 8⟩
    else
      .ok (ans.concat (BitSequence.new s.buffer (len + 1)),
        ⟨s.stream, s.buffer >>> ((len + 1) % 8), s.len - (len + 1)⟩)

/-- Models `BitReader::read_bits`. -/
def read_bits (len : Nat) (s : BitReaderState) : Except Err (BitSequence × BitReaderState) :=
  read_bits_aux (len + 2) (BitSequence.new 0 0) len s

/-- Models `BitReader::borrow_reader_from_boundary`: zero the bit buffer; afterwards the
underlying stream is read bytewise. -/
def borrow_reader_from_boundary (s : BitReaderState) : BitReaderState :=
  ⟨s.stream, 0, 0⟩

end BitReaderState

/-! ## huffman_coding.rs: the three token alphabets -/

/-- Models `TreeCodeToken` (code-length alphabet of dynamic blocks). -/
inductive TreeCodeToken where
  | length (n : Nat)
  | copyPrev
  | repeatZero (base : Nat) (extra_bits : Nat)
  deriving DecidableEq

/-- Models `TreeCodeToken::try_from(HuffmanCodeWord)`. -/
def TreeCodeToken.try_from (v : Nat) : Option TreeCodeToken :=
  if v ≤ 15 then some (.length v)
  else if v = 16 then some .copyPrev
  else if v = 17 then some (.repeatZero 17 3)
  else if v = 18 then some (.repeatZero 18 7)
  else none

/-- Models `LitLenToken`. -/
inductive LitLenToken where
  | literal (b : Nat)
  | endOfBlock
  | length (base : Nat) (extra_bits : Nat)
  deriving DecidableEq

/-- Models `LitLenToken::try_from(HuffmanCodeWord)`. -/
def LitLenToken.try_from (v : Nat) : Option LitLenToken :=
  if v ≤ 255 then some (.literal v)
  else if v = 256 then some .endOfBlock
  else if 257 ≤ v ∧ v ≤ 285 then
    if (257 ≤ v ∧ v ≤ 264) ∨ v = 285 then some (.length v 0)
    else some (.length v ((v - 261) / 4))
  else none

/-- Models `DistanceToken`. -/
structure DistanceToken where
  base : Nat
  extra_bits : Nat
  deriving DecidableEq

/-- Models `DistanceToken::try_from(HuffmanCodeWord)`. -/
def DistanceToken.try_from (v : Nat) : Option DistanceToken :=
  if v ≤ 3 then some ⟨v, 0⟩
  else if 4 ≤ v ∧ v ≤ 29 then some ⟨v, (v - 2) / 2⟩
  else none

/-! ## huffman_coding.rs: HuffmanCoding -/

namespace HuffmanCoding

/-- Models `length_counts` after the counting loop and the `length_counts[0] = 0`
overwrite: the number of entries of `L` equal to `i`, except that index 0 is
forced to zero. -/
def counts (L : List Nat) (i : Nat) : Nat :=
  if i = 0 then 0 else L.count i

/-- Models `next_codes[i]` as computed by
`for i in 1..len { code = (code + length_counts[i-1]) << 1; next_codes[i] = code }`.
`code` is a `u16`; in release mode the addition and the shift both wrap
modulo `2^16`. -/
def next_code (c : Nat → Nat) : Nat → Nat
  | 0 => 0
  | i + 1 => (next_code c i + c i) * 2 % 65536

/-- The assignment loop of `from_lengths`: walk the lengths in index order;
for each non-zero length convert the raw symbol `i` and insert under the key
`BitSequence::new(next_codes[len], len)`, then increment `next_codes[len]`.
The `HashMap` is modelled as an association list built by prepending, so that
`List.lookup` (first hit) realises the map's insert-overwrites semantics. -/
def assign {T : Type} (tf : Nat → Option T) :
    List Nat → Nat → (Nat → Nat) → List (BitSequence × T) → Except Err (List (BitSequence × T))
  | [], _, _, acc => .ok acc
  | l :: rest, i, next, acc =>
    if l = 0 then assign tf rest (i + 1) next acc
    else
      match tf i with
      | none => .error .invalidToken
      | some t =>
        assign tf rest (i + 1) (fun x => if x = l then next x + 1 else next x)
          ((BitSequence.new (next l) l, t) :: acc)

/-- Models `HuffmanCoding::from_lengths`. -/
def from_lengths {T : Type} (tf : Nat → Option T) (L : List Nat) :
    Except Err (List (BitSequence × T)) :=
  match L.max? with
  | none => .error .emptyLengths
  | some _ => assign tf L 0 (next_code (counts L)) []

/-- Models `self.map.get(&seq)` on the association-list model. -/
def get {T : Type} (m : List (BitSequence × T)) (k : BitSequence) : Option T :=
  List.lookup k m

/-- The `for _i in 0..MAX_BITS` loop of `read_symbol`: read one bit, prepend it
as the new low bit of the accumulator (`read_bits(1)?.concat(symbol)`), return
on the first table hit. -/
def read_symbol_aux {T : Type} (m : List (BitSequence × T)) :
    Nat → BitSequence → BitReaderState → Except Err (T × BitReaderState)
  | 0, _, _ => .error .unableToReadSymbol
  | fuel + 1, symbol, s =>
    match BitReaderState.read_bits 1 s with
    | .error e => .error e
    | .ok (b, s') =>
      let symbol := b.concat symbol
      match get m symbol with
      | some v => .ok (v, s')
      | none => read_symbol_aux m fuel symbol s'

/-- Models `HuffmanCoding::read_symbol` (`MAX_BITS = 15`). -/
def read_symbol {T : Type} (m : List (BitSequence × T)) (s : BitReaderState) :
    Except Err (T × BitReaderState) :=
  read_symbol_aux m 15 (BitSequence.new 0 0) s

end HuffmanCoding

/-! ## huffman_coding.rs: decode_litlen_distance_trees -/

namespace DynamicTrees

/-- The fixed permutation `MAP` of RFC 1951 §3.2.7. -/
def MAP : List Nat := [16, 17, 18, 0, 8, 7, 9, 6, 10, 5, 11, 4, 12, 3, 13, 2, 14, 1, 15]

/-- Models `for i in 0..codelen_size { code_lengths[MAP[i]] = read_bits(3) }`:
`n` counts the remaining iterations, `i` is the running index. -/
def read_code_lengths : Nat → Nat → List Nat → BitReaderState →
    Except Err (List Nat × BitReaderState)
  | 0, _, cl, s => .ok (cl, s)
  | n + 1, i, cl, s =>
    match BitReaderState.read_bits 3 s with
    | .error e => .error e
    | .ok (b, s') => read_code_lengths n (i + 1) (cl.set (MAP.getD i 0) b.bits) s'

/-- The first decoding loop of `decode_litlen_distance_trees`
(`while litlen_codes.len() < litlen_size`).  `fuel` bounds the iteration
count; every iteration appends at least one length, so `size + 1` suffices.
For `RepeatZero` the loop hard-codes 3 rsp. 7 extra bits; any other base is
`unreachable!()`. -/
def litlen_loop (m : List (BitSequence × TreeCodeToken)) (size : Nat) :
    Nat → List Nat → BitReaderState → Except Err (List Nat × BitReaderState)
  | 0, _, _ => .error .outOfFuel
  | fuel + 1, codes, s =>
    if codes.length < size then
      match HuffmanCoding.read_symbol m s with
      | .error e => .error e
      | .ok (tok, s₁) =>
        match tok with
        | .length l => litlen_loop m size fuel (codes ++ [l]) s₁
        | .copyPrev =>
          match BitReaderState.read_bits 2 s₁ with
          | .error e => .error e
          | .ok (b, s₂) =>
            match codes.getLast? with
            | none => .error .repeatEmpty
            | some last => litlen_loop m size fuel (codes ++ List.replicate (b.bits + 3) last) s₂
        | .repeatZero base _ =>
          if base = 17 then
            match BitReaderState.read_bits 3 s₁ with
            | .error e => .error e
            | .ok (b, s₂) => litlen_loop m size fuel (codes ++ List.replicate (b.bits + 3) 0) s₂
          else if base = 18 then
            match BitReaderState.read_bits 7 s₁ with
            | .error e => .error e
            | .ok (b, s₂) => litlen_loop m size fuel (codes ++ List.replicate (b.bits + 11) 0) s₂
          else .error .unreachableBranch
    else .ok (codes, s)

/-- The second decoding loop (`while distance_codes.len() < distance_size`);
identical shape, but the extra-bit count of a `RepeatZero` token is taken
from the token's `extra_bits` field. -/
def distance_loop (m : List (BitSequence × TreeCodeToken)) (size : Nat) :
    Nat → List Nat → BitReaderState → Except Err (List Nat × BitReaderState)
  | 0, _, _ => .error .outOfFuel
  | fuel + 1, codes, s =>
    if codes.length < size then
      match HuffmanCoding.read_symbol m s with
      | .error e => .error e
      | .ok (tok, s₁) =>
        match tok with
        | .length l => distance_loop m size fuel (codes ++ [l]) s₁
        | .copyPrev =>
          match BitReaderState.read_bits 2 s₁ with
          | .error e => .error e
          | .ok (b, s₂) =>
            match codes.getLast? with
            | none => .error .repeatEmpty
            | some last => distance_loop m size fuel (codes ++ List.replicate (b.bits + 3) last) s₂
        | .repeatZero base extra =>
          if base = 17 then
            match BitReaderState.read_bits extra s₁ with
            | .error e => .error e
            | .ok (b, s₂) => distance_loop m size fuel (codes ++ List.replicate (b.bits + 3) 0) s₂
          else if base = 18 then
            match BitReaderState.read_bits extra s₁ with
            | .error e => .error e
            | .ok (b, s₂) => distance_loop m size fuel (codes ++ List.replicate (b.bits + 11) 0) s₂
          else .error .unreachableBranch
    else .ok (codes, s)

/-- Models `decode_litlen_distance_trees`: reads HLIT/HDIST/HCLEN, the permuted
code-length code, then runs the two independent loops above and builds the
two tables. -/
def decode_litlen_distance_trees (s : BitReaderState) :
    Except Err ((List (BitSequence × LitLenToken) × List (BitSequence × DistanceToken)) × BitReaderState) := do
  let (hlit, s) ← BitReaderState.read_bits 5 s
  let litlen_size := hlit.bits + 257
  let (hdist, s) ← BitReaderState.read_bits 5 s
  let distance_size := hdist.bits + 1
  let (hclen, s) ← BitReaderState.read_bits 4 s
  let codelen_size := hclen.bits + 4
  let (code_lengths, s) ← read_code_lengths codelen_size 0 (List.replicate 19 0) s
  let code_decoder ← HuffmanCoding.from_lengths TreeCodeToken.try_from code_lengths
  let (litlen_codes, s) ← litlen_loop code_decoder litlen_size (litlen_size + 1) [] s
  let (distance_codes, s) ← distance_loop code_decoder distance_size (distance_size + 1) [] s
  let litlen ← HuffmanCoding.from_lengths LitLenToken.try_from litlen_codes
  let distance ← HuffmanCoding.from_lengths DistanceToken.try_from distance_codes
  .ok ((litlen, distance), s)

/-- Modelled from the spec: §4.3.1 prescribes decoding the `HLIT+257 + HDIST+1`
code lengths as a single concatenated sequence (so a copy-previous or repeat
token begun in the literal/length portion may continue into the distance
portion), splitting the flat vector afterwards.  This definition exists only
as the comparison point for that claim; the source runs two independent loops. -/
def flat_decode_trees (s : BitReaderState) :
    Except Err ((List (BitSequence × LitLenToken) × List (BitSequence × DistanceToken)) × BitReaderState) := do
  let (hlit, s) ← BitReaderState.read_bits 5 s
  let litlen_size := hlit.bits + 257
  let (hdist, s) ← BitReaderState.read_bits 5 s
  let distance_size := hdist.bits + 1
  let (hclen, s) ← BitReaderState.read_bits 4 s
  let codelen_size := hclen.bits + 4
  let (code_lengths, s) ← read_code_lengths codelen_size 0 (List.replicate 19 0) s
  let code_decoder ← HuffmanCoding.from_lengths TreeCodeToken.try_from code_lengths
  let total := litlen_size + distance_size
  let (flat, s) ← litlen_loop code_decoder total (total + 1) [] s
  let litlen ← HuffmanCoding.from_lengths LitLenToken.try_from (flat.take litlen_size)
  let distance ← HuffmanCoding.from_lengths DistanceToken.try_from (flat.drop litlen_size)
  .ok ((litlen, distance), s)

end DynamicTrees

/-! ## tracking_writer.rs -/

/-- Models `HISTORY_SIZE`. -/
def HISTORY_SIZE : Nat := 32768

namespace RingBuffer

/-- One iteration of `RingBuffer::write_slice`: newest byte at the front
(`push_front`), oldest dropped from the back (`pop_back`) once the deque
holds `HISTORY_SIZE` bytes. -/
def push (w : List Nat) (b : Nat) : List Nat :=
  b :: (if HISTORY_SIZE ≤ w.length then w.dropLast else w)

/-- Models `RingBuffer::write_slice`. -/
def write_slice (w : List Nat) (buf : List Nat) : List Nat :=
  buf.foldl push w

end RingBuffer

/-- Models `TrackingWriter<T>`.  `digest` is the byte sequence fed to the CRC-32
digest so far, `inner` the bytes held by the sink, `byte_n` the count of
accepted bytes, `buffer` the ring buffer (front = most recent byte).
The sink is modelled by an acceptance policy `accept : Nat → Nat → Nat`
passed to each operation: given the sink's current size and a requested
write length it returns how many bytes the sink takes (`inner.write`'s
return value); `accept_full` models `Vec<u8>`, which accepts everything. -/
structure TrackingWriter where
  digest : List Nat
  inner : List Nat
  byte_n : Nat
  buffer : List Nat
  deriving DecidableEq

/-- The sink policy of `Vec<u8>`: every byte is accepted. -/
def accept_full : Nat → Nat → Nat := fun _ n => n

namespace TrackingWriter

/-- Models `TrackingWriter::new`. -/
def new : TrackingWriter := ⟨[], [], 0, []⟩

/-- Models `<TrackingWriter as Write>::write`: forward to the sink, then update the
digest, the window and the byte count with the accepted prefix only. -/
def write (accept : Nat → Nat → Nat) (tw : TrackingWriter) (buf : List Nat) :
    TrackingWriter × Nat :=
  let size := accept tw.inner.length buf.length
  let eff := buf.take size
  (⟨tw.digest ++ eff, tw.inner ++ eff, tw.byte_n + size, RingBuffer.write_slice tw.buffer eff⟩,
    size)

/-- Models `WriteBytesExt::write_u8 = write_all(&[b])`: one call to `write`; a
short (zero-byte) write is `ErrorKind::WriteZero`.  The `Bool` reports
success. -/
def write_u8 (accept : Nat → Nat → Nat) (tw : TrackingWriter) (b : Nat) :
    TrackingWriter × Bool :=
  let r := write accept tw [b]
  (r.1, decide (r.2 = 1))

/-- Models `write_u8` with the error propagated, as at the `?` call sites. -/
def write_u8E (accept : Nat → Nat → Nat) (tw : TrackingWriter) (b : Nat) :
    Except Err TrackingWriter :=
  let r := write_u8 accept tw b
  if r.2 then .ok r.1 else .error .writeZero

end TrackingWriter

/-- Outcome of `TrackingWriter::write_previous`.  `indexOutOfBounds` is not a
structured `anyhow` error but the panic of `buffer.0[dist - 1]` when the
index is outside the deque (in debug builds the `usize` subtraction `0 - 1`
already panics; either way the method aborts rather than returning `Err`). -/
inductive WPRes where
  | ok
  /-- Models `ensure!(dist <= self.byte_n, "Trying to go back in time")`. -/
  | backInTime
  /-- Models `ensure!(dist <= HISTORY_SIZE, "Trying to rewrite to much history")`. -/
  | tooMuchHistory
  /-- Models `write_u8`'s `WriteZero` propagated by `?`. -/
  | sinkZero
  /-- the `VecDeque` index panic. -/
  | indexOutOfBounds
  deriving DecidableEq

/-- Wrapping `usize` subtraction (release semantics); `dist - 1` underflows
to `2^64 - 1` when `dist = 0`. -/
def usize_sub (a b : Nat) : Nat := (a + (2 ^ 64 - b)) % 2 ^ 64

namespace TrackingWriter

/-- The `for _i in 0..len` loop of `write_previous`: on each iteration the
window is re-read at index `dist - 1` (so freshly appended bytes are seen)
and the byte is appended through `write_u8`. -/
def write_previous_loop (accept : Nat → Nat → Nat) :
    Nat → Nat → TrackingWriter → TrackingWriter × WPRes
  | 0, _, tw => (tw, .ok)
  | n + 1, dist, tw =>
    match tw.buffer[usize_sub dist 1]? with
    | none => (tw, .indexOutOfBounds)
    | some b =>
      let r := write_u8 accept tw b
      if r.2 then write_previous_loop accept n dist r.1 else (r.1, .sinkZero)

/-- Models `TrackingWriter::write_previous`. -/
def write_previous (accept : Nat → Nat → Nat) (tw : TrackingWriter) (dist len : Nat) :
    TrackingWriter × WPRes :=
  if dist ≤ tw.byte_n then
    if dist ≤ HISTORY_SIZE then write_previous_loop accept len dist tw
    else (tw, .tooMuchHistory)
  else (tw, .backInTime)

/-- Models `TrackingWriter::byte_count`. -/
def byte_count (tw : TrackingWriter) : Nat := tw.byte_n

end TrackingWriter

/-- One public operation on a `TrackingWriter`, for stating invariants over
arbitrary operation sequences. -/
inductive TWOp where
  | write (buf : List Nat)
  | write_previous (dist len : Nat)

/-- Run one operation, keeping the (possibly partially mutated) writer state
also when the operation reports an error. -/
def TWOp.apply (accept : Nat → Nat → Nat) (tw : TrackingWriter) : TWOp → TrackingWriter
  | .write buf => (TrackingWriter.write accept tw buf).1
  | .write_previous d l => (TrackingWriter.write_previous accept tw d l).1

/-- Well-formedness of a reachable `TrackingWriter` state: the byte count
matches the accepted bytes, the digest has absorbed exactly the accepted
bytes, and the ring buffer holds the most recent `HISTORY_SIZE` of them
(newest first). -/
def TrackingWriter.Wf (tw : TrackingWriter) : Prop :=
  tw.byte_n = tw.inner.length ∧ tw.digest = tw.inner ∧
    tw.buffer = tw.inner.reverse.take HISTORY_SIZE

/-- The first `k` single-bit reads from a bit reader (each
via `read_bits(1)`), returned as the list of bit values with the final
state. -/
def bits_seq : Nat → BitReaderState → Except Err (List Nat × BitReaderState)
  | 0, s => .ok ([], s)
  | k + 1, s =>
    match BitReaderState.read_bits 1 s with
    | .error e => .error e
    | .ok (b, s₁) =>
      match bits_seq k s₁ with
      | .error e => .error e
      | .ok (bs, s₂) => .ok (b.bits :: bs, s₂)

/-- The accumulator discipline of `read_symbol` applied to a list of bits:
each new bit becomes the low bit and the previously read bits shift one
position higher (`read_bits(1)?.concat(symbol)`), so bit `l-1` of the
accumulated codeword is the first bit read (MSB-first). -/
def acc_bits (start : BitSequence) (bs : List Nat) : BitSequence :=
  bs.foldl (fun a b => (BitSequence.new b 1).concat a) start

/-! ## deflate.rs -/

namespace Deflate

/-- Models `let len = match length_base { ... } + length_extra_bits` (RFC 1951 Table L).
`none` models `bail!("invalid length base!")`. -/
def length_value (base extra : Nat) : Option Nat :=
  if 257 ≤ base ∧ base ≤ 264 then some (base - 254 + extra)
  else if 265 ≤ base ∧ base ≤ 268 then some (11 + (base - 265) * 2 + extra)
  else if 269 ≤ base ∧ base ≤ 272 then some (19 + (base - 269) * 4 + extra)
  else if 273 ≤ base ∧ base ≤ 276 then some (35 + (base - 273) * 8 + extra)
  else if 277 ≤ base ∧ base ≤ 280 then some (67 + (base - 277) * 16 + extra)
  else if 281 ≤ base ∧ base ≤ 284 then some (131 + (base - 281) * 32 + extra)
  else if base = 285 then some (258 + extra)
  else none

/-- Models `let distance = match distance_base { ... } + distance_extra_bits` (Table D). -/
def distance_value (base extra : Nat) : Option Nat :=
  if base ≤ 3 then some (base + 1 + extra)
  else if base ≤ 5 then some (5 + (base - 4) * 2 + extra)
  else if base ≤ 7 then some (9 + (base - 6) * 4 + extra)
  else if base ≤ 9 then some (17 + (base - 8) * 8 + extra)
  else if base ≤ 11 then some (33 + (base - 10) * 16 + extra)
  else if base ≤ 13 then some (65 + (base - 12) * 32 + extra)
  else if base ≤ 15 then some (129 + (base - 14) * 64 + extra)
  else if base ≤ 17 then some (257 + (base - 16) * 128 + extra)
  else if base ≤ 19 then some (513 + (base - 18) * 256 + extra)
  else if base ≤ 21 then some (1025 + (base - 20) * 512 + extra)
  else if base ≤ 23 then some (2049 + (base - 22) * 1024 + extra)
  else if base ≤ 25 then some (4097 + (base - 24) * 2048 + extra)
  else if base ≤ 27 then some (8193 + (base - 26) * 4096 + extra)
  else if base ≤ 29 then some (16385 + (base - 28) * 8192 + extra)
  else none

/-- The fixed literal/length code-length vector of the `FixedTree` arm:
`[8]×144 ∘ [9]×112 ∘ [7]×24 ∘ [8]×8` (288 entries). -/
def fixed_litlen_lengths : List Nat :=
  List.replicate 144 8 ++ List.replicate 112 9 ++ List.replicate 24 7 ++ List.replicate 8 8

/-- The fixed distance code-length vector of the `FixedTree` arm:
`repeat(5).take(32)`. -/
def fixed_distance_lengths : List Nat :=
  List.replicate 32 5

/-- Models `w.write_previous(dist, len)?` inside `read_block`: the two `ensure!`
errors are surfaced as `anyhow` errors; an out-of-window index aborts the
process (modelled as the distinguished errors below). -/
def write_previousE (tw : TrackingWriter) (dist len : Nat) : Except Err TrackingWriter :=
  let r := TrackingWriter.write_previous accept_full tw dist len
  match r.2 with
  | .ok => .ok r.1
  | .backInTime => .error .backInTime
  | .tooMuchHistory => .error .tooMuchHistory
  | .sinkZero => .error .writeZero
  | .indexOutOfBounds => .error .indexPanicked

/-- The decoded-symbol loop shared verbatim by the `FixedTree` and
`DynamicTree` arms of `read_block`: read lit/len tokens until `EndOfBlock`,
emitting literals and expanding back-references.  `fuel` bounds the number of
loop iterations. -/
def block_loop (litlen : List (BitSequence × LitLenToken))
    (distance : List (BitSequence × DistanceToken)) :
    Nat → BitReaderState → TrackingWriter → Except Err (BitReaderState × TrackingWriter)
  | 0, _, _ => .error .outOfFuel
  | fuel + 1, s, tw =>
    match HuffmanCoding.read_symbol litlen s with
    | .error e => .error e
    | .ok (tok, s₁) =>
      match tok with
      | .endOfBlock => .ok (s₁, tw)
      | .literal b =>
        match TrackingWriter.write_u8E accept_full tw b with
        | .error e => .error e
        | .ok tw₁ => block_loop litlen distance fuel s₁ tw₁
      | .length base lextra => do
        let (lext, s₂) ← BitReaderState.read_bits lextra s₁
        let (dtok, s₃) ← HuffmanCoding.read_symbol distance s₂
        let (dext, s₄) ← BitReaderState.read_bits dtok.extra_bits s₃
        match length_value base lext.bits with
        | none => .error .invalidLengthBase
        | some lengthv =>
          match distance_value dtok.base dext.bits with
          | none => .error .invalidDistanceBase
          | some distancev => do
            let tw₁ ← write_previousE tw distancev lengthv
            block_loop litlen distance fuel s₄ tw₁

/-- The `CompressionType::Uncompressed` arm of `read_block`: realign to the
byte boundary (discarding buffered bits), read `LEN`/`NLEN` as `u16` LE,
check `LEN == !NLEN`, then feed `LEN` raw bytes to the tracker.  Returns the
bit-reader state (byte-aligned) and the tracker. -/
def read_u16_le (s : List Nat) : Except Err (Nat × List Nat) :=
  match s with
  | a :: b :: rest => .ok (a + 256 * b, rest)
  | _ => .error .eof

/-- Models `for _i in 0..len { tracker.write_u8(rdr.read_u8()?)? }`. -/
def copy_raw : Nat → List Nat → TrackingWriter → Except Err (List Nat × TrackingWriter)
  | 0, st, tw => .ok (st, tw)
  | n + 1, st, tw => do
    let (b, st₁) ← BitReaderState.read_u8 st
    let tw₁ ← TrackingWriter.write_u8E accept_full tw b
    copy_raw n st₁ tw₁

/-- The stored-block arm.  `!not_len` is the 16-bit complement `65535 - NLEN`. -/
def read_stored_body (s : BitReaderState) (tw : TrackingWriter) :
    Except Err (BitReaderState × TrackingWriter) := do
  let st := (s.borrow_reader_from_boundary).stream
  let (lenv, st) ← read_u16_le st
  let (not_len, st) ← read_u16_le st
  if lenv = 65535 - not_len then do
    let (st, tw) ← copy_raw lenv st tw
    .ok (⟨st, 0, 0⟩, tw)
  else .error .nlenMismatch

/-- Models `DeflateReader::read_block`.  Returns `is_avail` (`BFINAL == 0`), the
block's decoded bytes (`mem::take` of the tracker's inner `Vec`), and the
updated reader/tracker states.  `fuel` bounds the symbol-loop iterations of
the Huffman arms. -/
def read_block (fuel : Nat) (s : BitReaderState) (tw : TrackingWriter) :
    Except Err (Bool × List Nat × BitReaderState × TrackingWriter) := do
  let (bfinal, s) ← BitReaderState.read_bits 1 s
  let is_avail := bfinal.bits = 0
  let (btype, s) ← BitReaderState.read_bits 2 s
  let body ←
    match btype.bits with
    | 0 => read_stored_body s tw
    | 1 => do
      let litlen_coding ← HuffmanCoding.from_lengths LitLenToken.try_from fixed_litlen_lengths
      let distance_coding ← HuffmanCoding.from_lengths DistanceToken.try_from fixed_distance_lengths
      block_loop litlen_coding distance_coding fuel s tw
    | 2 => do
      let ((litlen_coding, distance_coding), s) ← DynamicTrees.decode_litlen_distance_trees s
      block_loop litlen_coding distance_coding fuel s tw
    | 3 => .error .reservedBlockType
    | _ => .error .invalidCompressionType
  let (s, tw) := body
  .ok (is_avail, tw.inner, s, { tw with inner := [] })

end Deflate

/-! ## gzip.rs -/

namespace Gzip

/-- One shift step of the bitwise (reflected) CRC-32, polynomial `0xEDB88320`. -/
def crc32_step (c : Nat) : Nat :=
  if c % 2 = 1 then Nat.xor (c >>> 1) 0xEDB88320 else c >>> 1

/-- Absorb one byte into a CRC-32 state. -/
def crc32_byte (c b : Nat) : Nat :=
  crc32_step^[8] (Nat.xor c b)

/-- CRC-32/ISO-HDLC of a byte sequence (`crc` crate, `CRC_32_ISO_HDLC`):
init `0xFFFFFFFF`, reflected, xorout `0xFFFFFFFF`. -/
def crc32 (data : List Nat) : Nat :=
  Nat.xor (data.foldl crc32_byte 0xFFFFFFFF) 0xFFFFFFFF

/-- Models `MemberFlags::bit`: `(self.0 >> n) & 1 != 0`. -/
def flag_bit (f n : Nat) : Bool :=
  decide ((f >>> n) % 2 ≠ 0)

/-- Models `MemberHeader` (the `name`/`comment` `String`s are kept as their UTF-8
byte sequences; parsing validates them before constructing the header). -/
structure MemberHeader where
  compression_method : Nat
  flags : Nat
  modification_time : Nat
  extra : Option (List Nat)
  name : Option (List Nat)
  comment : Option (List Nat)
  extra_flags : Nat
  os : Nat
  deriving DecidableEq

/-- Little-endian byte decompositions used by `to_le_bytes`. -/
def u16_le_bytes (n : Nat) : List Nat :=
  [n % 256, n / 256 % 256]

/-- Models `u32::to_le_bytes`. -/
def u32_le_bytes (n : Nat) : List Nat :=
  [n % 256, n / 256 % 256, n / 65536 % 256, n / 16777216 % 256]

/-- Models `MemberHeader::crc16`: CRC-32 over the reassembled header bytes, low 16
bits.  `extra.len() as u16` truncates modulo `2^16`. -/
def MemberHeader.crc16 (h : MemberHeader) : Nat :=
  let bytes :=
    [0x1f, 0x8b, h.compression_method, h.flags] ++ u32_le_bytes h.modification_time ++
      [h.extra_flags, h.os] ++
      (match h.extra with
       | none => []
       | some e => u16_le_bytes (e.length % 65536) ++ e) ++
      (match h.name with
       | none => []
       | some n => n ++ [0]) ++
      (match h.comment with
       | none => []
       | some c => c ++ [0])
  crc32 bytes % 65536

/-- Model of the validity check performed by `String::from_utf8`
(Unicode Table 3-7): a continuation byte is in `0x80..=0xBF`. -/
def utf8_cont (c : Nat) : Bool :=
  decide (0x80 ≤ c ∧ c ≤ 0xBF)

/-- Model of the validity check performed by `String::from_utf8`: well-formed
UTF-8 byte sequences, including the `E0`/`ED`/`F0`/`F4` range restrictions. -/
def utf8_valid : List Nat → Bool
  | [] => true
  | b :: rest =>
    if b ≤ 0x7F then utf8_valid rest
    else if 0xC2 ≤ b ∧ b ≤ 0xDF then
      match rest with
      | c1 :: r => utf8_cont c1 && utf8_valid r
      | _ => false
    else if 0xE0 ≤ b ∧ b ≤ 0xEF then
      match rest with
      | c1 :: c2 :: r =>
        (if b = 0xE0 then decide (0xA0 ≤ c1 ∧ c1 ≤ 0xBF)
         else if b = 0xED then decide (0x80 ≤ c1 ∧ c1 ≤ 0x9F)
         else utf8_cont c1) && utf8_cont c2 && utf8_valid r
      | _ => false
    else if 0xF0 ≤ b ∧ b ≤ 0xF4 then
      match rest with
      | c1 :: c2 :: c3 :: r =>
        (if b = 0xF0 then decide (0x90 ≤ c1 ∧ c1 ≤ 0xBF)
         else if b = 0xF4 then decide (0x80 ≤ c1 ∧ c1 ≤ 0x8F)
         else utf8_cont c1) && utf8_cont c2 && utf8_cont c3 && utf8_valid r
      | _ => false
    else false

/-- The `while { byte = read_u8()?; byte != 0 }` loop collecting a
NUL-terminated field: returns the bytes before the NUL and the rest. -/
def read_cstring : List Nat → Except Err (List Nat × List Nat)
  | [] => .error .eof
  | b :: rest =>
    if b = 0 then .ok ([], rest)
    else
      match read_cstring rest with
      | .error e => .error e
      | .ok (s, r) => .ok (b :: s, r)

/-- Models `read_u32::<LittleEndian>`. -/
def read_u32_le (s : List Nat) : Except Err (Nat × List Nat) :=
  match s with
  | a :: b :: c :: d :: rest => .ok (a + 256 * (b + 256 * (c + 256 * d)), rest)
  | _ => .error .eof

/-- The `flags.has_extra()` block of `into_deflate_reader`: read u16 LE
`XLEN`, then `read` — `BufRead::read`, which here yields
`min(XLEN, available)` bytes — and require exactly `XLEN` bytes. -/
def parse_extra (flg : Nat) (st : List Nat) : Except Err (Option (List Nat) × List Nat) :=
  if flag_bit flg 2 then
    match Deflate.read_u16_le st with
    | .error e => .error e
    | .ok (xlen, st) =>
      if min xlen st.length = xlen then .ok (some (st.take xlen), st.drop xlen)
      else .error .extraTooShort
  else .ok (none, st)

/-- The (textually identical) `flags.has_name()` / `flags.has_comment()`
blocks of `into_deflate_reader`: collect bytes up to the NUL, then
`String::from_utf8` — failure propagates, so invalid bytes are never
stored. -/
def parse_opt_cstring (present : Bool) (st : List Nat) :
    Except Err (Option (List Nat) × List Nat) :=
  if present then
    match read_cstring st with
    | .error e => .error e
    | .ok (ns, st) =>
      if utf8_valid ns then .ok (some ns, st) else .error .invalidUtf8
  else .ok (none, st)

/-- The `header.flags.has_crc()` block of `into_deflate_reader`. -/
def parse_hcrc (flg : Nat) (header : MemberHeader) (st : List Nat) : Except Err (List Nat) :=
  if flag_bit flg 1 then
    match Deflate.read_u16_le st with
    | .error e => .error e
    | .ok (crc, st) => if header.crc16 = crc then .ok st else .error .headerCrcMismatch
  else .ok st

/-- Models `MemberReader::into_deflate_reader`: parse the gzip member header and
return it together with a fresh `BitReader` over the remaining bytes. -/
def into_deflate_reader (stream : List Nat) : Except Err (MemberHeader × BitReaderState) := do
  let (id1, st) ← BitReaderState.read_u8 stream
  let (id2, st) ← BitReaderState.read_u8 st
  if id1 = 0x1f ∧ id2 = 0x8b then do
    let (cm, st) ← BitReaderState.read_u8 st
    let (flags, st) ← BitReaderState.read_u8 st
    let (mtime, st) ← read_u32_le st
    let (xfl, st) ← BitReaderState.read_u8 st
    let (os, st) ← BitReaderState.read_u8 st
    let (extra, st) ← parse_extra flags st
    let (name, st) ← parse_opt_cstring (flag_bit flags 3) st
    let (comment, st) ← parse_opt_cstring (flag_bit flags 4) st
    let header : MemberHeader :=
      { compression_method := cm, flags := flags, modification_time := mtime,
        extra := extra, name := name, comment := comment, extra_flags := xfl, os := os }
    let st ← parse_hcrc flags header st
    .ok (header, ⟨st, 0, 0⟩)
  else .error .wrongId

/-- Models `MemberReader::read_footer`: `data_crc32` then `data_size`, both u32 LE. -/
def read_footer (st : List Nat) : Except Err ((Nat × Nat) × List Nat) := do
  let (crc, st) ← read_u32_le st
  let (isz, st) ← read_u32_le st
  .ok ((crc, isz), st)

end Gzip

/-! ## lib.rs: the per-member trailer validation -/

/-- The tail of `decompress`'s member loop (lib.rs lines 29–34): read the
footer, then `ensure!(writer.byte_count() == footer.data_size as usize)` and
`ensure!(writer.crc32() == footer.data_crc32)`.  `byte_count` and `crc` are
the values returned by the tracker's `byte_count()`/`crc32()`. -/
def finish_member (byte_count crc : Nat) (st : List Nat) : Except Err (List Nat) := do
  let ((data_crc32, data_size), st) ← Gzip.read_footer st
  if byte_count = data_size then
    if crc = data_crc32 then .ok st else .error .crcCheckFailed
  else .error .lengthCheckFailed

/-! # Theorems -/

/-- C1: refuted on the code.  The spec's fixed-Huffman test vector
`1F 8B 08 ... 4B 4C 4A 06 00 ...` should decode to `"abc"`, and in
particular building the fixed tables should succeed.  In fact
`from_lengths` converts every non-zero-length symbol index through
`try_from`, which rejects the literal/length indices 286/287 (lengths 8 in
the 288-entry fixed vector) and the distance indices 30/31 (lengths 5 in the
32-entry fixed vector), so both fixed tables fail to build and `read_block`
fails on the member's DEFLATE payload instead of producing `"abc"`. -/
theorem c1_fixed_block_always_fails :
    HuffmanCoding.from_lengths LitLenToken.try_from Deflate.fixed_litlen_lengths
        = .error .invalidToken ∧
      HuffmanCoding.from_lengths DistanceToken.try_from Deflate.fixed_distance_lengths
        = .error .invalidToken ∧
      Deflate.read_block 1 ⟨[0x4B, 0x4C, 0x4A, 0x06, 0x00], 0, 0⟩ TrackingWriter.new
        = .error .invalidToken :=
  ⟨rfl, rfl, rfl⟩

/-- C3: refuted on the code.  The 6-byte dynamic-block header
`60 40 10 FC 57 1B` encodes HLIT = 0, HDIST = 3, HCLEN = 0, a code-length
code assigning length 1 to symbols 16 (copy-previous) and 18 (repeat-zero),
and then the token stream repeat-zero×138, repeat-zero×117, copy-previous×6:
the final copy-previous token begins at flat position 255 (< 257) and spans
the literal/length//distance boundary.  The single-loop decoding prescribed
by the spec succeeds (261 zero lengths, two empty tables, 3 bits of padding
left).  The source's two independent loops instead consume the spanning
token entirely inside the literal/length loop and then fail with
`"Trying to repeat empty buffer"` when the distance loop starts empty. -/
theorem c3_boundary_repeat_diverges :
    DynamicTrees.decode_litlen_distance_trees ⟨[0x60, 0x40, 0x10, 0xFC, 0x57, 0x1B], 0, 0⟩
        = .error .repeatEmpty ∧
      DynamicTrees.flat_decode_trees ⟨[0x60, 0x40, 0x10, 0xFC, 0x57, 0x1B], 0, 0⟩
        = .ok ((([], []), ⟨[], 0, 3⟩)) :=
  ⟨rfl, rfl⟩

/-- C5 counterexample: the claim says the member is accepted iff the CRC
matches and ISIZE equals `byte_count & 0xFFFFFFFF`.  At byte count `2^32`
with accumulated CRC 0 and trailer bytes all zero, the claimed acceptance
condition holds (`0 = 0` and `0 = 2^32 % 2^32`), yet the code rejects with
`"length check failed"`, because it compares `byte_count == data_size as
usize` without any modular reduction. -/
theorem c5_isize_mod_counterexample :
    finish_member (2 ^ 32) 0 [0, 0, 0, 0, 0, 0, 0, 0] = .error .lengthCheckFailed ∧
      (0 : Nat) = 0 ∧ (0 : Nat) = 2 ^ 32 % 2 ^ 32 :=
  ⟨rfl, rfl, by norm_num⟩

/-- C5 (amended): after the last block, `decompress` reads the trailer as
u32 LE CRC then u32 LE ISIZE and accepts the member iff the CRC equals the
tracker's accumulated CRC-32 and ISIZE equals the byte count *exactly* (the
`usize` count is compared against the zero-extended u32 with no modular
reduction, so any member of `2^32` or more bytes is rejected). -/
theorem c5_trailer_check_exact (byte_count crc c0 c1 c2 c3 i0 i1 i2 i3 : Nat)
    (rest : List Nat) :
    finish_member byte_count crc (c0 :: c1 :: c2 :: c3 :: i0 :: i1 :: i2 :: i3 :: rest)
        = .ok rest ↔
      crc = c0 + 256 * (c1 + 256 * (c2 + 256 * c3)) ∧
        byte_count = i0 + 256 * (i1 + 256 * (i2 + 256 * i3)) := by
  simp only [finish_member, Gzip.read_footer, Gzip.read_u32_le, bind, Except.bind, pure]
  constructor
  · intro h
    by_cases hl : byte_count = i0 + 256 * (i1 + 256 * (i2 + 256 * i3))
    · simp only [hl, if_true] at h
      by_cases hc : crc = c0 + 256 * (c1 + 256 * (c2 + 256 * c3))
      · exact ⟨hc, hl⟩
      · simp [hc] at h
    · simp [hl] at h
  · rintro ⟨hc, hl⟩
    simp [hl, hc]

/-- C2 counterexample: the claim says `from_lengths(L)` succeeds iff the
non-zero lengths satisfy Kraft's inequality, and that on success all
assigned `(codeword, length)` keys are distinct.  The vector `[1, 1, 1]`
(entries in 0..15, three length-1 codes) violates Kraft's inequality
(`3 · 2^0 > 2^1`), yet `from_lengths` succeeds — and the key `(0, 1)` is
assigned twice (the third codeword `2` is masked to `0` by
`BitSequence::new`), so the keys are not distinct either. -/
theorem c2_kraft_counterexample :
    HuffmanCoding.from_lengths TreeCodeToken.try_from [1, 1, 1]
        = .ok [(⟨0, 1⟩, .length 2), (⟨1, 1⟩, .length 1), (⟨0, 1⟩, .length 0)] ∧
      ¬ (((([1, 1, 1] : List Nat).filter (fun l => l ≠ 0)).map
            (fun l => 2 ^ (([1, 1, 1] : List Nat).max?.getD 0 - l))).sum
          ≤ 2 ^ (([1, 1, 1] : List Nat).max?.getD 0)) ∧
      ¬ ((([(⟨0, 1⟩, TreeCodeToken.length 2), (⟨1, 1⟩, .length 1), (⟨0, 1⟩, .length 0)] :
            List (BitSequence × TreeCodeToken)).map Prod.fst).Nodup ) := by
  refine ⟨rfl, by decide, by decide⟩

/-! ## TrackingWriter invariants -/

namespace TrackingWriter

theorem wf_new : Wf new := ⟨rfl, rfl, rfl⟩

theorem push_window (inn : List Nat) (b : Nat) :
    RingBuffer.push (inn.reverse.take HISTORY_SIZE) b
      = (inn ++ [b]).reverse.take HISTORY_SIZE := by
  unfold RingBuffer.push
  rw [List.reverse_append, List.reverse_singleton, List.singleton_append,
    show (HISTORY_SIZE : Nat) = 32767 + 1 from rfl, List.take_succ_cons, List.length_take]
  by_cases h : 32767 + 1 ≤ inn.reverse.length
  · rw [if_pos (by omega), List.dropLast_eq_take, List.length_take, List.take_take]
    congr 2
    omega
  · rw [if_neg (by omega), List.take_of_length_le (by omega),
      List.take_of_length_le (by omega)]

theorem write_slice_window (eff : List Nat) :
    ∀ inn : List Nat,
      RingBuffer.write_slice (inn.reverse.take HISTORY_SIZE) eff
        = (inn ++ eff).reverse.take HISTORY_SIZE := by
  induction eff with
  | nil => intro inn; simp [RingBuffer.write_slice]
  | cons b eff ih =>
    intro inn
    show RingBuffer.write_slice (RingBuffer.push (inn.reverse.take HISTORY_SIZE) b) eff = _
    rw [push_window, ih (inn ++ [b]), List.append_assoc]
    rfl

theorem write_eq (accept : Nat → Nat → Nat) (tw : TrackingWriter) (buf : List Nat) :
    write accept tw buf =
      (⟨tw.digest ++ buf.take (accept tw.inner.length buf.length),
        tw.inner ++ buf.take (accept tw.inner.length buf.length),
        tw.byte_n + accept tw.inner.length buf.length,
        RingBuffer.write_slice tw.buffer (buf.take (accept tw.inner.length buf.length))⟩,
        accept tw.inner.length buf.length) := rfl

theorem wf_write {accept : Nat → Nat → Nat} (ha : ∀ c n, accept c n ≤ n)
    {tw : TrackingWriter} (h : tw.Wf) (buf : List Nat) :
    (write accept tw buf).1.Wf ∧
      (write accept tw buf).1.inner
        = tw.inner ++ buf.take (accept tw.inner.length buf.length) := by
  obtain ⟨hn, hd, hb⟩ := h
  have hsz : accept tw.inner.length buf.length ≤ buf.length := ha _ _
  rw [write_eq]
  refine ⟨⟨?_, ?_, ?_⟩, rfl⟩
  · show tw.byte_n + _ = (tw.inner ++ _).length
    rw [List.length_append, List.length_take, hn]
    omega
  · show tw.digest ++ _ = tw.inner ++ _
    rw [hd]
  · show RingBuffer.write_slice tw.buffer _ = _
    rw [hb, write_slice_window]

theorem wf_write_u8 {accept : Nat → Nat → Nat} (ha : ∀ c n, accept c n ≤ n)
    {tw : TrackingWriter} (h : tw.Wf) (b : Nat) :
    (write_u8 accept tw b).1.Wf :=
  (wf_write ha h [b]).1

theorem wf_write_previous_loop {accept : Nat → Nat → Nat} (ha : ∀ c n, accept c n ≤ n)
    (dist : Nat) :
    ∀ (len : Nat) (tw : TrackingWriter), tw.Wf →
      (write_previous_loop accept len dist tw).1.Wf := by
  intro len
  induction len with
  | zero => intro tw h; exact h
  | succ n ih =>
    intro tw h
    show (match tw.buffer[usize_sub dist 1]? with
      | none => (tw, WPRes.indexOutOfBounds)
      | some b =>
        let r := write_u8 accept tw b
        if r.2 then write_previous_loop accept n dist r.1 else (r.1, .sinkZero)).1.Wf
    cases hq : tw.buffer[usize_sub dist 1]? with
    | none => exact h
    | some b =>
      by_cases hr : (write_u8 accept tw b).2
      · simpa [hr] using ih _ (wf_write_u8 ha h b)
      · simpa [hr] using wf_write_u8 ha h b

theorem wf_write_previous {accept : Nat → Nat → Nat} (ha : ∀ c n, accept c n ≤ n)
    {tw : TrackingWriter} (h : tw.Wf) (dist len : Nat) :
    (write_previous accept tw dist len).1.Wf := by
  unfold write_previous
  by_cases h1 : dist ≤ tw.byte_n
  · by_cases h2 : dist ≤ HISTORY_SIZE
    · simpa [h1, h2] using wf_write_previous_loop ha dist len tw h
    · simpa [h1, h2] using h
  · simpa [h1] using h

theorem wf_apply {accept : Nat → Nat → Nat} (ha : ∀ c n, accept c n ≤ n)
    {tw : TrackingWriter} (h : tw.Wf) (op : TWOp) :
    (TWOp.apply accept tw op).Wf := by
  cases op with
  | write buf => exact (wf_write ha h buf).1
  | write_previous d l => exact wf_write_previous ha h d l

theorem wf_foldl {accept : Nat → Nat → Nat} (ha : ∀ c n, accept c n ≤ n)
    (ops : List TWOp) :
    ∀ {tw : TrackingWriter}, tw.Wf → (ops.foldl (TWOp.apply accept) tw).Wf := by
  induction ops with
  | nil => intro tw h; exact h
  | cons op ops ih => intro tw h; exact ih (wf_apply ha h op)

end TrackingWriter

/-- C6: for every sink-acceptance policy (accepting at most the requested
bytes) and every sequence of `write`/`write_previous` operations starting
from a fresh `TrackingWriter`, the sliding window stays within
`HISTORY_SIZE = 32768` and its length always equals
`min(byte_count, 32768)`; moreover `byte_count` counts exactly the bytes
accepted by the sink, and the CRC digest has absorbed exactly those
accepted bytes. -/
theorem c6_window_invariant (accept : Nat → Nat → Nat) (ha : ∀ c n, accept c n ≤ n)
    (ops : List TWOp) :
    ((ops.foldl (TWOp.apply accept) TrackingWriter.new).buffer.length
        = min (ops.foldl (TWOp.apply accept) TrackingWriter.new).byte_n HISTORY_SIZE) ∧
      (ops.foldl (TWOp.apply accept) TrackingWriter.new).buffer.length ≤ HISTORY_SIZE ∧
      (ops.foldl (TWOp.apply accept) TrackingWriter.new).byte_n
        = (ops.foldl (TWOp.apply accept) TrackingWriter.new).inner.length ∧
      (ops.foldl (TWOp.apply accept) TrackingWriter.new).digest
        = (ops.foldl (TWOp.apply accept) TrackingWriter.new).inner := by
  obtain ⟨hn, hd, hb⟩ := TrackingWriter.wf_foldl ha ops TrackingWriter.wf_new
  refine ⟨?_, ?_, hn, hd⟩
  · rw [hb, List.length_take, List.length_reverse, hn, Nat.min_comm]
  · rw [hb, List.length_take]
    omega

/-- C6 witness: a concrete partial sink (capacity 4) with a write of 6 bytes
followed by a self-extending back-reference. -/
theorem c6_window_invariant_witness :
    (([TWOp.write [1, 2, 3, 4, 5, 6], TWOp.write_previous 2 3].foldl
          (TWOp.apply (fun c n => min n (4 - c))) TrackingWriter.new).buffer.length
        = min ([TWOp.write [1, 2, 3, 4, 5, 6], TWOp.write_previous 2 3].foldl
            (TWOp.apply (fun c n => min n (4 - c))) TrackingWriter.new).byte_n HISTORY_SIZE) ∧
      ([TWOp.write [1, 2, 3, 4, 5, 6], TWOp.write_previous 2 3].foldl
          (TWOp.apply (fun c n => min n (4 - c))) TrackingWriter.new).buffer.length
        ≤ HISTORY_SIZE ∧
      ([TWOp.write [1, 2, 3, 4, 5, 6], TWOp.write_previous 2 3].foldl
          (TWOp.apply (fun c n => min n (4 - c))) TrackingWriter.new).byte_n
        = ([TWOp.write [1, 2, 3, 4, 5, 6], TWOp.write_previous 2 3].foldl
            (TWOp.apply (fun c n => min n (4 - c))) TrackingWriter.new).inner.length ∧
      ([TWOp.write [1, 2, 3, 4, 5, 6], TWOp.write_previous 2 3].foldl
          (TWOp.apply (fun c n => min n (4 - c))) TrackingWriter.new).digest
        = ([TWOp.write [1, 2, 3, 4, 5, 6], TWOp.write_previous 2 3].foldl
            (TWOp.apply (fun c n => min n (4 - c))) TrackingWriter.new).inner :=
  c6_window_invariant (fun c n => min n (4 - c)) (fun _ _ => Nat.min_le_left _ _)
    [TWOp.write [1, 2, 3, 4, 5, 6], TWOp.write_previous 2 3]

/-- C9: `write_previous(0, len)` with `len ≥ 1` passes both `ensure!`
precondition checks (they only test `dist ≤ byte_n` and
`dist ≤ HISTORY_SIZE`, and both hold trivially for `dist = 0`), so the call
never takes the structured error path; the window index `dist - 1`
underflows to `2^64 - 1` and the out-of-bounds `VecDeque` access (a panic)
is reached. -/
theorem c9_zero_distance_reaches_oob (accept : Nat → Nat → Nat) (tw : TrackingWriter)
    (hbuf : tw.buffer.length ≤ HISTORY_SIZE) (len : Nat) (hlen : 1 ≤ len) :
    TrackingWriter.write_previous accept tw 0 len = (tw, .indexOutOfBounds) := by
  unfold TrackingWriter.write_previous
  rw [if_pos (Nat.zero_le _), if_pos (Nat.zero_le _)]
  cases len with
  | zero => omega
  | succ n =>
    show (match tw.buffer[usize_sub 0 1]? with
      | none => (tw, WPRes.indexOutOfBounds)
      | some b =>
        let r := TrackingWriter.write_u8 accept tw b
        if r.2 then TrackingWriter.write_previous_loop accept n 0 r.1
        else (r.1, .sinkZero)) = (tw, .indexOutOfBounds)
    have : tw.buffer[usize_sub 0 1]? = none := by
      apply List.getElem?_len_le
      have : usize_sub 0 1 = 2 ^ 64 - 1 := by norm_num [usize_sub]
      rw [this]
      unfold HISTORY_SIZE at hbuf
      omega
    rw [this]

/-- C9 witness: a writer holding one byte; `write_previous(0, 1)` hits the
out-of-bounds access rather than either structured error. -/
theorem c9_zero_distance_reaches_oob_witness :
    TrackingWriter.write_previous accept_full ⟨[7], [7], 1, [7]⟩ 0 1
      = (⟨[7], [7], 1, [7]⟩, .indexOutOfBounds) :=
  c9_zero_distance_reaches_oob accept_full ⟨[7], [7], 1, [7]⟩ (by norm_num [HISTORY_SIZE]) 1
    (by norm_num)

namespace TrackingWriter

theorem window_read {tw : TrackingWriter} (h : tw.Wf) {dist : Nat} (h1 : 1 ≤ dist)
    (h2 : dist ≤ tw.byte_n) (h3 : dist ≤ HISTORY_SIZE) :
    tw.buffer[usize_sub dist 1]? = tw.inner[tw.inner.length - dist]? := by
  obtain ⟨hn, hd, hb⟩ := h
  have hdist : dist ≤ tw.inner.length := hn ▸ h2
  have hu : usize_sub dist 1 = dist - 1 := by
    unfold usize_sub
    rw [show dist + (2 ^ 64 - 1) = dist - 1 + 2 ^ 64 by omega, Nat.add_mod_right,
      Nat.mod_eq_of_lt (by unfold HISTORY_SIZE at h3; omega)]
  rw [hu, hb, List.getElem?_take, if_pos (show dist - 1 < HISTORY_SIZE by
    unfold HISTORY_SIZE at h3 ⊢; omega)]
  rw [List.getElem?_reverse (show dist - 1 < tw.inner.length by omega)]
  rw [show tw.inner.length - 1 - (dist - 1) = tw.inner.length - dist from by omega]

theorem write_previous_loop_spec {accept : Nat → Nat → Nat} (ha : ∀ c n, accept c n = n)
    {dist : Nat} (h1 : 1 ≤ dist) (h3 : dist ≤ HISTORY_SIZE) :
    ∀ (len : Nat) (tw : TrackingWriter), tw.Wf → dist ≤ tw.byte_n →
      ∃ e : List Nat, e.length = len ∧
        write_previous_loop accept len dist tw
          = (⟨tw.digest ++ e, tw.inner ++ e, tw.byte_n + len,
              (tw.inner ++ e).reverse.take HISTORY_SIZE⟩, .ok) ∧
        ∀ k < len, e[k]? = (tw.inner ++ e.take k)[tw.inner.length + k - dist]? := by
  have ha' : ∀ c n, accept c n ≤ n := fun c n => (ha c n).le
  intro len
  induction len with
  | zero =>
    intro tw hwf h2
    obtain ⟨hn, hd, hb⟩ := hwf
    refine ⟨[], rfl, ?_, by omega⟩
    show (tw, WPRes.ok) = _
    simp only [List.append_nil, Nat.add_zero, ← hb]
  | succ n ih =>
    intro tw hwf h2
    have hL : dist ≤ tw.inner.length := hwf.1 ▸ h2
    have hlt : tw.inner.length - dist < tw.inner.length := by omega
    have hread : tw.buffer[usize_sub dist 1]?
        = some (tw.inner.get ⟨tw.inner.length - dist, hlt⟩) := by
      rw [window_read hwf h1 h2 h3, List.getElem?_eq_getElem hlt, List.get_eq_getElem]
    set b := tw.inner.get ⟨tw.inner.length - dist, hlt⟩ with hbdef
    have hwrite : write_u8 accept tw b
        = (⟨tw.digest ++ [b], tw.inner ++ [b], tw.byte_n + 1,
            RingBuffer.write_slice tw.buffer [b]⟩, true) := by
      unfold write_u8
      rw [write_eq, ha]
      simp
    have hwf' : (⟨tw.digest ++ [b], tw.inner ++ [b], tw.byte_n + 1,
        RingBuffer.write_slice tw.buffer [b]⟩ : TrackingWriter).Wf := by
      have := (wf_write ha' hwf [b]).1
      rw [write_eq, ha] at this
      simpa using this
    obtain ⟨e', hlen', heq', hidx'⟩ := ih _ hwf' (by show dist ≤ tw.byte_n + 1; omega)
    refine ⟨b :: e', by simp [hlen'], ?_, ?_⟩
    · show (match tw.buffer[usize_sub dist 1]? with
        | none => (tw, WPRes.indexOutOfBounds)
        | some b =>
          let r := write_u8 accept tw b
          if r.2 then write_previous_loop accept n dist r.1 else (r.1, .sinkZero)) = _
      rw [hread]
      simp only [hwrite, eq_self_iff_true, if_true, heq']
      simp only [List.append_assoc, List.singleton_append]
      rw [show tw.byte_n + 1 + n = tw.byte_n + (n + 1) from by omega]
    · intro k hk
      cases k with
      | zero =>
        simp only [List.getElem?_cons_zero, List.take_zero, List.append_nil, Nat.add_zero]
        rw [List.getElem?_eq_getElem hlt, hbdef, List.get_eq_getElem]
      | succ k =>
        have hk' : k < n := by omega
        have := hidx' k hk'
        simp only [List.getElem?_cons_succ]
        rw [this]
        congr 1
        · simp [List.take_succ_cons]
        · simp only [List.length_append, List.length_singleton]
          omega

end TrackingWriter

/-- C4: for every full-acceptance sink (the `Vec<u8>` used by the decoder)
and every well-formed `TrackingWriter` state, if
`1 ≤ distance ≤ min(byte_count, 32768)` then `write_previous(distance,
length)` succeeds and appends exactly `length` bytes, the `k`-th appended
byte being the byte `distance` positions before the tail at the moment it is
emitted (the window is re-read after every append, so `distance < length`
self-extends as an LZ77 run); the call fails with "Trying to go back in
time" when `distance > byte_count` and with "Trying to rewrite to much
history" when `distance ≤ byte_count` but `distance > 32768`. -/
theorem c4_write_previous_spec (accept : Nat → Nat → Nat) (ha : ∀ c n, accept c n = n)
    (tw : TrackingWriter) (hwf : tw.Wf) (dist len : Nat) :
    (1 ≤ dist → dist ≤ tw.byte_n → dist ≤ HISTORY_SIZE →
      ∃ e : List Nat, e.length = len ∧
        TrackingWriter.write_previous accept tw dist len
          = (⟨tw.digest ++ e, tw.inner ++ e, tw.byte_n + len,
              (tw.inner ++ e).reverse.take HISTORY_SIZE⟩, .ok) ∧
        ∀ k < len, e[k]? = (tw.inner ++ e.take k)[tw.inner.length + k - dist]?) ∧
      (tw.byte_n < dist →
        TrackingWriter.write_previous accept tw dist len = (tw, .backInTime)) ∧
      (dist ≤ tw.byte_n → HISTORY_SIZE < dist →
        TrackingWriter.write_previous accept tw dist len = (tw, .tooMuchHistory)) := by
  refine ⟨?_, ?_, ?_⟩
  · intro h1 h2 h3
    unfold TrackingWriter.write_previous
    rw [if_pos h2, if_pos h3]
    exact TrackingWriter.write_previous_loop_spec ha h1 h3 len tw hwf h2
  · intro h
    unfold TrackingWriter.write_previous
    rw [if_neg (by omega)]
  · intro h2 h3
    unfold TrackingWriter.write_previous
    rw [if_pos h2, if_neg (by omega)]

/-- C4 witness: from the two-byte state `[1, 2]`, `write_previous(1, 3)`
succeeds, emits 3 bytes (the run `[2, 2, 2]`), and `write_previous(5, 1)`
is rejected for reaching before the stream start. -/
theorem c4_write_previous_spec_witness :
    (TrackingWriter.write_previous accept_full ⟨[1, 2], [1, 2], 2, [2, 1]⟩ 1 3).2
        = WPRes.ok ∧
      (TrackingWriter.write_previous accept_full ⟨[1, 2], [1, 2], 2, [2, 1]⟩ 1 3).1.byte_n
        = 5 ∧
      TrackingWriter.write_previous accept_full ⟨[1, 2], [1, 2], 2, [2, 1]⟩ 5 1
        = (⟨[1, 2], [1, 2], 2, [2, 1]⟩, .backInTime) := by
  have h := c4_write_previous_spec accept_full (fun _ _ => rfl)
    ⟨[1, 2], [1, 2], 2, [2, 1]⟩ ⟨rfl, rfl, rfl⟩ 1 3
  obtain ⟨e, hlen, heq, _⟩ := h.1 (by norm_num) (by norm_num) (by norm_num [HISTORY_SIZE])
  have h5 := (c4_write_previous_spec accept_full (fun _ _ => rfl)
    ⟨[1, 2], [1, 2], 2, [2, 1]⟩ ⟨rfl, rfl, rfl⟩ 5 1).2.1 (by norm_num)
  exact ⟨by rw [heq], by rw [heq], h5⟩

/-! ## Stored blocks -/

theorem write_u8_full_eq (tw : TrackingWriter) (b : Nat) :
    TrackingWriter.write_u8 accept_full tw b
      = (⟨tw.digest ++ [b], tw.inner ++ [b], tw.byte_n + 1,
          RingBuffer.write_slice tw.buffer [b]⟩, true) := rfl

theorem copy_raw_spec :
    ∀ (n : Nat) (st : List Nat) (tw : TrackingWriter), n ≤ st.length →
      ∃ tw', Deflate.copy_raw n st tw = .ok (st.drop n, tw') ∧
        tw'.inner = tw.inner ++ st.take n ∧ tw'.digest = tw.digest ++ st.take n ∧
        tw'.byte_n = tw.byte_n + n := by
  intro n
  induction n with
  | zero =>
    intro st tw _
    exact ⟨tw, rfl, by simp, by simp, rfl⟩
  | succ n ih =>
    intro st tw hlen
    cases st with
    | nil => simp at hlen
    | cons x st' =>
      obtain ⟨tw', heq, hi, hd, hb⟩ := ih st'
        ⟨tw.digest ++ [x], tw.inner ++ [x], tw.byte_n + 1,
          RingBuffer.write_slice tw.buffer [x]⟩ (by simpa using hlen)
      dsimp only at hi hd hb
      refine ⟨tw', ?_, ?_, ?_, ?_⟩
      · show (do
          let (b, st₁) ← BitReaderState.read_u8 (x :: st')
          let tw₁ ← TrackingWriter.write_u8E accept_full tw b
          Deflate.copy_raw n st₁ tw₁) = _
        rw [show BitReaderState.read_u8 (x :: st') = .ok (x, st') from rfl]
        show Deflate.copy_raw n st' ⟨tw.digest ++ [x], tw.inner ++ [x], tw.byte_n + 1,
          RingBuffer.write_slice tw.buffer [x]⟩ = _
        rw [heq]
        rfl
      · rw [hi, List.take_succ_cons, List.append_assoc, List.singleton_append]
      · rw [hd, List.take_succ_cons, List.append_assoc, List.singleton_append]
      · rw [hb]; omega

/-- C7: a stored block realigns the bit reader to the next byte boundary
(the buffered bits are discarded: the outcome only depends on the stream),
reads LEN and NLEN as little-endian u16, fails with "nlen check failed" iff
`LEN ≠ (~NLEN & 0xFFFF)`, and otherwise passes exactly LEN raw stream bytes
through to the TrackingWriter, leaving the reader byte-aligned just past
them; a stored block with LEN = 0 emits nothing and leaves the stream
byte-aligned. -/
theorem c7_stored_block_spec (buf l a b c d : Nat) (rest : List Nat)
    (tw : TrackingWriter) :
    (∀ s : BitReaderState,
      Deflate.read_stored_body s tw = Deflate.read_stored_body ⟨s.stream, 0, 0⟩ tw) ∧
      (a + 256 * b ≠ 65535 - (c + 256 * d) →
        Deflate.read_stored_body ⟨a :: b :: c :: d :: rest, buf, l⟩ tw
          = .error .nlenMismatch) ∧
      (a + 256 * b = 65535 - (c + 256 * d) → a + 256 * b ≤ rest.length →
        ∃ tw', Deflate.read_stored_body ⟨a :: b :: c :: d :: rest, buf, l⟩ tw
            = .ok (⟨rest.drop (a + 256 * b), 0, 0⟩, tw') ∧
          tw'.inner = tw.inner ++ rest.take (a + 256 * b) ∧
          tw'.digest = tw.digest ++ rest.take (a + 256 * b) ∧
          tw'.byte_n = tw.byte_n + (a + 256 * b)) ∧
      (a = 0 → b = 0 → c = 255 → d = 255 →
        Deflate.read_stored_body ⟨a :: b :: c :: d :: rest, buf, l⟩ tw
          = .ok (⟨rest, 0, 0⟩, tw)) := by
  refine ⟨fun s => rfl, ?_, ?_, ?_⟩
  · intro hne
    show (do
      let (lenv, st) ← Deflate.read_u16_le (a :: b :: c :: d :: rest)
      let (not_len, st) ← Deflate.read_u16_le st
      if lenv = 65535 - not_len then do
        let (st, tw) ← Deflate.copy_raw lenv st tw
        Except.ok ((⟨st, 0, 0⟩ : BitReaderState), tw)
      else .error .nlenMismatch) = _
    rw [show Deflate.read_u16_le (a :: b :: c :: d :: rest)
      = .ok (a + 256 * b, c :: d :: rest) from rfl]
    show (do
      let (not_len, st) ← Deflate.read_u16_le (c :: d :: rest)
      if a + 256 * b = 65535 - not_len then do
        let (st, tw) ← Deflate.copy_raw (a + 256 * b) st tw
        Except.ok ((⟨st, 0, 0⟩ : BitReaderState), tw)
      else .error .nlenMismatch) = _
    rw [show Deflate.read_u16_le (c :: d :: rest) = .ok (c + 256 * d, rest) from rfl]
    show (if a + 256 * b = 65535 - (c + 256 * d) then _ else Except.error Err.nlenMismatch) = _
    rw [if_neg hne]
  · intro heq hlen
    obtain ⟨tw', hc, hi, hd, hb⟩ := copy_raw_spec (a + 256 * b) rest tw hlen
    refine ⟨tw', ?_, hi, hd, hb⟩
    show (do
      let (lenv, st) ← Deflate.read_u16_le (a :: b :: c :: d :: rest)
      let (not_len, st) ← Deflate.read_u16_le st
      if lenv = 65535 - not_len then do
        let (st, tw) ← Deflate.copy_raw lenv st tw
        Except.ok ((⟨st, 0, 0⟩ : BitReaderState), tw)
      else .error .nlenMismatch) = _
    rw [show Deflate.read_u16_le (a :: b :: c :: d :: rest)
      = .ok (a + 256 * b, c :: d :: rest) from rfl]
    show (do
      let (not_len, st) ← Deflate.read_u16_le (c :: d :: rest)
      if a + 256 * b = 65535 - not_len then do
        let (st, tw) ← Deflate.copy_raw (a + 256 * b) st tw
        Except.ok ((⟨st, 0, 0⟩ : BitReaderState), tw)
      else .error .nlenMismatch) = _
    rw [show Deflate.read_u16_le (c :: d :: rest) = .ok (c + 256 * d, rest) from rfl]
    show (if a + 256 * b = 65535 - (c + 256 * d) then (do
      let (st, tw) ← Deflate.copy_raw (a + 256 * b) rest tw
      Except.ok ((⟨st, 0, 0⟩ : BitReaderState), tw)) else Except.error Err.nlenMismatch) = _
    rw [if_pos heq, hc]
    rfl
  · intro ha hb hc hd
    subst ha; subst hb; subst hc; subst hd
    rfl

/-- C7 witness: `LEN = 1` with a corrupted NLEN is rejected; `LEN = 0` with
the correct NLEN `0xFFFF` consumes exactly the four header bytes, emits
nothing and leaves the reader byte-aligned. -/
theorem c7_stored_block_spec_witness :
    Deflate.read_stored_body ⟨[1, 0, 0, 0], 9, 9⟩ TrackingWriter.new
        = .error .nlenMismatch ∧
      Deflate.read_stored_body ⟨[0, 0, 255, 255], 7, 7⟩ TrackingWriter.new
        = .ok (⟨[], 0, 0⟩, TrackingWriter.new) :=
  ⟨(c7_stored_block_spec 9 9 1 0 0 0 [] TrackingWriter.new).2.1 (by norm_num),
    (c7_stored_block_spec 7 7 0 0 255 255 [] TrackingWriter.new).2.2.2 rfl rfl rfl rfl⟩

/-! ## read_symbol -/

theorem read_bits_one {s s' : BitReaderState} {q : BitSequence}
    (h : BitReaderState.read_bits 1 s = .ok (q, s')) : q.len = 1 ∧ q.bits < 2 := by
  cases s with
  | mk stream buffer len =>
    rcases len with _ | len
    · cases stream with
      | nil => simp [BitReaderState.read_bits, BitReaderState.read_bits_aux,
          BitReaderState.read_u8] at h
      | cons b rest =>
        simp only [BitReaderState.read_bits, BitReaderState.read_bits_aux,
          BitReaderState.read_u8, show (0 : Nat) < 0 + 1 from Nat.zero_lt_one, if_true,
          show ¬(8 : Nat) < 1 from by norm_num, if_false,
          Except.ok.injEq, Prod.mk.injEq] at h
        obtain ⟨hq, -⟩ := h
        subst hq
        refine ⟨rfl, ?_⟩
        show (BitSequence.new 0 0).bits ||| ((BitSequence.new buffer 0).bits <<< 0) |||
          ((BitSequence.new b (0 + 1)).bits <<< (0 + 0)) < 2
        simp only [BitSequence.new, Nat.pow_zero, Nat.mod_one, Nat.shiftLeft_zero,
          Nat.zero_or, Nat.or_zero, Nat.pow_one]
        omega
    · simp only [BitReaderState.read_bits, BitReaderState.read_bits_aux,
        show ¬len + 1 < 1 from by omega, if_false, Except.ok.injEq, Prod.mk.injEq] at h
      obtain ⟨hq, -⟩ := h
      subst hq
      refine ⟨rfl, ?_⟩
      show (BitSequence.new 0 0).bits ||| ((BitSequence.new buffer (0 + 1)).bits <<< 0) < 2
      simp only [BitSequence.new, Nat.pow_zero, Nat.mod_one, Nat.shiftLeft_zero,
        Nat.zero_or, Nat.or_zero, Nat.pow_one]
      omega

theorem read_bits_one_concat {s s' : BitReaderState} {q : BitSequence}
    (h : BitReaderState.read_bits 1 s = .ok (q, s')) (sym : BitSequence) :
    q.concat sym = (BitSequence.new q.bits 1).concat sym := by
  obtain ⟨hlen, hbits⟩ := read_bits_one h
  have hnew : BitSequence.new q.bits 1 = q := by
    unfold BitSequence.new
    cases q with
    | mk bits len =>
      simp only at hlen hbits
      rw [hlen, Nat.mod_eq_of_lt (by omega : bits < 2 ^ 1)]
  rw [hnew]

theorem acc_bits_cons {s s' : BitReaderState} {q : BitSequence}
    (hq : BitReaderState.read_bits 1 s = .ok (q, s')) (sym : BitSequence)
    (l : List Nat) :
    acc_bits sym (q.bits :: l) = acc_bits (q.concat sym) l := by
  unfold acc_bits
  rw [List.foldl_cons, read_bits_one_concat hq sym]

theorem read_symbol_aux_succ {T : Type} (m : List (BitSequence × T)) (f : Nat)
    (sym : BitSequence) (s : BitReaderState) :
    HuffmanCoding.read_symbol_aux m (f + 1) sym s
      = match BitReaderState.read_bits 1 s with
        | .error e => .error e
        | .ok (b, s₁) =>
          match HuffmanCoding.get m (b.concat sym) with
          | some v => .ok (v, s₁)
          | none => HuffmanCoding.read_symbol_aux m f (b.concat sym) s₁ := rfl

theorem read_symbol_aux_hit {T : Type} (m : List (BitSequence × T)) :
    ∀ (k : Nat) (fuel : Nat) (sym : BitSequence) (s s' : BitReaderState)
      (bs : List Nat) (v : T),
      1 ≤ k → k ≤ fuel →
      bits_seq k s = .ok (bs, s') →
      HuffmanCoding.get m (acc_bits sym bs) = some v →
      (∀ j, 1 ≤ j → j < k → HuffmanCoding.get m (acc_bits sym (bs.take j)) = none) →
      HuffmanCoding.read_symbol_aux m fuel sym s = .ok (v, s') := by
  intro k
  induction k with
  | zero => omega
  | succ k ih =>
    intro fuel sym s s' bs v _ hfuel hseq hhit hmiss
    rcases fuel with _ | f
    · omega
    unfold bits_seq at hseq
    rcases hq : BitReaderState.read_bits 1 s with e | ⟨q, s₁⟩ <;> rw [hq] at hseq
    · simp at hseq
    rcases hrest : bits_seq k s₁ with e | ⟨bs', s₂⟩ <;> simp only [hrest] at hseq
    · simp at hseq
    simp only [Except.ok.injEq, Prod.mk.injEq] at hseq
    obtain ⟨hbs, hs'⟩ := hseq
    subst hbs
    subst hs'
    rw [read_symbol_aux_succ, hq]
    rcases k with _ | k
    · rw [show bits_seq 0 s₁ = .ok ([], s₁) from rfl] at hrest
      simp only [Except.ok.injEq, Prod.mk.injEq] at hrest
      obtain ⟨hbs', hs₂⟩ := hrest
      subst hbs'
      subst hs₂
      rw [acc_bits_cons hq sym []] at hhit
      rw [show acc_bits (q.concat sym) [] = q.concat sym from rfl] at hhit
      simp only [hhit]
    · have hnone : HuffmanCoding.get m (q.concat sym) = none := by
        have h1 := hmiss 1 (by omega) (by omega)
        rwa [show (q.bits :: bs').take 1 = q.bits :: [] from by
            rw [List.take_succ_cons, List.take_zero],
          acc_bits_cons hq sym [],
          show acc_bits (q.concat sym) [] = q.concat sym from rfl] at h1
      simp only [hnone]
      refine ih f (q.concat sym) s₁ _ bs' v (by omega) (by omega) hrest ?_ ?_
      · rwa [acc_bits_cons hq sym bs'] at hhit
      · intro j hj1 hjk
        have hj := hmiss (j + 1) (by omega) (by omega)
        rwa [List.take_succ_cons, acc_bits_cons hq sym (bs'.take j)] at hj

theorem read_symbol_aux_miss {T : Type} (m : List (BitSequence × T)) :
    ∀ (fuel : Nat) (sym : BitSequence) (s s' : BitReaderState) (bs : List Nat),
      bits_seq fuel s = .ok (bs, s') →
      (∀ j, 1 ≤ j → j ≤ fuel → HuffmanCoding.get m (acc_bits sym (bs.take j)) = none) →
      HuffmanCoding.read_symbol_aux m fuel sym s = .error .unableToReadSymbol := by
  intro fuel
  induction fuel with
  | zero => intro sym s s' bs _ _; rfl
  | succ f ih =>
    intro sym s s' bs hseq hmiss
    unfold bits_seq at hseq
    rcases hq : BitReaderState.read_bits 1 s with e | ⟨q, s₁⟩ <;> rw [hq] at hseq
    · simp at hseq
    rcases hrest : bits_seq f s₁ with e | ⟨bs', s₂⟩ <;> simp only [hrest] at hseq
    · simp at hseq
    simp only [Except.ok.injEq, Prod.mk.injEq] at hseq
    obtain ⟨hbs, hs'⟩ := hseq
    subst hbs
    subst hs'
    have hnone : HuffmanCoding.get m (q.concat sym) = none := by
      have h1 := hmiss 1 (by omega) (by omega)
      rwa [show (q.bits :: bs').take 1 = q.bits :: [] from by
          rw [List.take_succ_cons, List.take_zero],
        acc_bits_cons hq sym [],
        show acc_bits (q.concat sym) [] = q.concat sym from rfl] at h1
    rw [read_symbol_aux_succ, hq]
    simp only [hnone]
    refine ih (q.concat sym) s₁ _ bs' hrest ?_
    intro j hj1 hjf
    have hj := hmiss (j + 1) (by omega) (by omega)
    rwa [List.take_succ_cons, acc_bits_cons hq sym (bs'.take j)] at hj

/-- C8: for every Huffman table and bit-reader state, `read_symbol`
accumulates stream bits MSB-first — each newly read bit becomes the low bit
of the accumulator and the previously read bits shift one position higher
(`acc_bits`) — and returns the token of the first accumulated `(bits, len)`
pair present in the table; if 15 bits are consumed without a table hit it
fails with "Unable to read symbol". -/
theorem c8_read_symbol_spec {T : Type} (m : List (BitSequence × T)) (s : BitReaderState) :
    (∀ (k : Nat) (bs : List Nat) (s' : BitReaderState) (v : T),
      1 ≤ k → k ≤ 15 →
      bits_seq k s = .ok (bs, s') →
      HuffmanCoding.get m (acc_bits (BitSequence.new 0 0) bs) = some v →
      (∀ j, 1 ≤ j → j < k →
        HuffmanCoding.get m (acc_bits (BitSequence.new 0 0) (bs.take j)) = none) →
      HuffmanCoding.read_symbol m s = .ok (v, s')) ∧
      (∀ (bs : List Nat) (s' : BitReaderState),
        bits_seq 15 s = .ok (bs, s') →
        (∀ j, 1 ≤ j → j ≤ 15 →
          HuffmanCoding.get m (acc_bits (BitSequence.new 0 0) (bs.take j)) = none) →
        HuffmanCoding.read_symbol m s = .error .unableToReadSymbol) :=
  ⟨fun k bs s' v h1 h15 hseq hhit hmiss =>
      read_symbol_aux_hit m k 15 (BitSequence.new 0 0) s s' bs v h1 h15 hseq hhit hmiss,
    fun bs s' hseq hmiss =>
      read_symbol_aux_miss m 15 (BitSequence.new 0 0) s s' bs hseq hmiss⟩

/-- C8 witness: the one-entry table `{(1, 1) ↦ 42}` and the stream `[0x01]`:
the first bit read is 1, the accumulator is `(1, 1)`, and `read_symbol`
returns 42 having consumed one bit. -/
theorem c8_read_symbol_spec_witness :
    HuffmanCoding.read_symbol [((⟨1, 1⟩ : BitSequence), (42 : Nat))] ⟨[1], 0, 0⟩
      = .ok (42, ⟨[], 0, 7⟩) :=
  (c8_read_symbol_spec [((⟨1, 1⟩ : BitSequence), (42 : Nat))] ⟨[1], 0, 0⟩).1
    1 [1] ⟨[], 0, 7⟩ 42 (by norm_num) (by norm_num) rfl rfl (by omega)

/-! ## Header name/comment validation -/

theorem read_cstring_append (ns rest : List Nat) (h : 0 ∉ ns) :
    Gzip.read_cstring (ns ++ 0 :: rest) = .ok (ns, rest) := by
  induction ns with
  | nil => rfl
  | cons b ns ih =>
    have hb : ¬b = 0 := fun hb => h (hb ▸ List.mem_cons_self b ns)
    show (if b = 0 then Except.ok ([], ns ++ 0 :: rest)
      else match Gzip.read_cstring (ns ++ 0 :: rest) with
        | .error e => .error e
        | .ok (s, r) => .ok (b :: s, r)) = _
    rw [if_neg hb, ih (fun hm => h (List.mem_cons_of_mem b hm))]

theorem into_deflate_reader_cont (cm flg m0 m1 m2 m3 xfl osb : Nat) (tail : List Nat) :
    Gzip.into_deflate_reader
        (0x1f :: 0x8b :: cm :: flg :: m0 :: m1 :: m2 :: m3 :: xfl :: osb :: tail)
      = (do
        let (extra, st) ← Gzip.parse_extra flg tail
        let (name, st) ← Gzip.parse_opt_cstring (Gzip.flag_bit flg 3) st
        let (comment, st) ← Gzip.parse_opt_cstring (Gzip.flag_bit flg 4) st
        let header : Gzip.MemberHeader :=
          { compression_method := cm, flags := flg,
            modification_time := m0 + 256 * (m1 + 256 * (m2 + 256 * m3)),
            extra := extra, name := name, comment := comment, extra_flags := xfl, os := osb }
        let st ← Gzip.parse_hcrc flg header st
        Except.ok (header, (⟨st, 0, 0⟩ : BitReaderState))) := rfl

theorem parse_opt_cstring_invalid (ns rest : List Nat) (hns : 0 ∉ ns)
    (hbad : Gzip.utf8_valid ns = false) :
    Gzip.parse_opt_cstring true (ns ++ 0 :: rest) = .error .invalidUtf8 := by
  unfold Gzip.parse_opt_cstring
  rw [if_pos rfl, read_cstring_append ns rest hns]
  show (if Gzip.utf8_valid ns = true then _ else _) = _
  rw [hbad]
  simp

theorem parse_opt_cstring_absent (st : List Nat) :
    Gzip.parse_opt_cstring false st = .ok (none, st) := rfl

/-- C10: for every gzip member whose FNAME flag (bit 3) is set and whose
NUL-terminated name bytes are not valid UTF-8, `into_deflate_reader` fails
with the `String::from_utf8` error before building the header (so the raw
bytes are never stored undecoded and `decompress` fails); likewise for a
member with FCOMMENT (bit 4) set and an invalid comment.  The optional
EXTRA field (bit 2) may be present (`extra_part` then carries its two
length bytes and exactly that many payload bytes) or absent (empty). -/
theorem c10_invalid_utf8_name_rejected (cm flg m0 m1 m2 m3 xfl osb : Nat)
    (extra_part ns rest : List Nat)
    (hex_t : Gzip.flag_bit flg 2 = true →
      ∃ x0 x1 e, extra_part = x0 :: x1 :: e ∧ e.length = x0 + 256 * x1)
    (hex_f : Gzip.flag_bit flg 2 = false → extra_part = [])
    (hns : 0 ∉ ns) (hbad : Gzip.utf8_valid ns = false) :
    (Gzip.flag_bit flg 3 = true →
      Gzip.into_deflate_reader
          ([0x1f, 0x8b, cm, flg, m0, m1, m2, m3, xfl, osb] ++ extra_part ++ ns ++ 0 :: rest)
        = .error .invalidUtf8) ∧
      (Gzip.flag_bit flg 3 = false → Gzip.flag_bit flg 4 = true →
        Gzip.into_deflate_reader
            ([0x1f, 0x8b, cm, flg, m0, m1, m2, m3, xfl, osb] ++ extra_part ++ ns ++ 0 :: rest)
          = .error .invalidUtf8) := by
  have hstream :
      ([0x1f, 0x8b, cm, flg, m0, m1, m2, m3, xfl, osb] ++ extra_part ++ ns ++ 0 :: rest)
        = 0x1f :: 0x8b :: cm :: flg :: m0 :: m1 :: m2 :: m3 :: xfl :: osb ::
          (extra_part ++ ns ++ 0 :: rest) := by simp
  have hextra : Gzip.parse_extra flg (extra_part ++ ns ++ 0 :: rest)
      = .ok ((if Gzip.flag_bit flg 2 then some (extra_part.drop 2) else none),
          ns ++ 0 :: rest) := by
    unfold Gzip.parse_extra
    by_cases h2 : Gzip.flag_bit flg 2 = true
    · obtain ⟨x0, x1, e, he, hlen⟩ := hex_t h2
      subst he
      rw [if_pos h2, if_pos h2]
      show (if min (x0 + 256 * x1) (e ++ ns ++ 0 :: rest).length = x0 + 256 * x1
          then Except.ok (some ((e ++ ns ++ 0 :: rest).take (x0 + 256 * x1)),
            (e ++ ns ++ 0 :: rest).drop (x0 + 256 * x1))
          else Except.error Err.extraTooShort) = _
      simp only [List.append_assoc]
      rw [if_pos (show min (x0 + 256 * x1) (e ++ (ns ++ 0 :: rest)).length = x0 + 256 * x1 by
        simp only [List.length_append, List.length_cons]
        omega)]
      rw [← hlen, List.take_left, List.drop_left]
      rfl
    · have hf : Gzip.flag_bit flg 2 = false := by
        revert h2
        cases Gzip.flag_bit flg 2 <;> simp
      rw [if_neg h2, if_neg h2, hex_f hf]
      rfl
  constructor
  · intro h3
    rw [hstream, into_deflate_reader_cont, hextra]
    show (do
      let (name, st) ← Gzip.parse_opt_cstring (Gzip.flag_bit flg 3) (ns ++ 0 :: rest)
      let (comment, st) ← Gzip.parse_opt_cstring (Gzip.flag_bit flg 4) st
      let header : Gzip.MemberHeader :=
        { compression_method := cm, flags := flg,
          modification_time := m0 + 256 * (m1 + 256 * (m2 + 256 * m3)),
          extra := if Gzip.flag_bit flg 2 then some (extra_part.drop 2) else none,
          name := name, comment := comment, extra_flags := xfl, os := osb }
      let st ← Gzip.parse_hcrc flg header st
      Except.ok (header, (⟨st, 0, 0⟩ : BitReaderState))) = _
    rw [h3, parse_opt_cstring_invalid ns rest hns hbad]
    rfl
  · intro h3 h4
    rw [hstream, into_deflate_reader_cont, hextra]
    show (do
      let (name, st) ← Gzip.parse_opt_cstring (Gzip.flag_bit flg 3) (ns ++ 0 :: rest)
      let (comment, st) ← Gzip.parse_opt_cstring (Gzip.flag_bit flg 4) st
      let header : Gzip.MemberHeader :=
        { compression_method := cm, flags := flg,
          modification_time := m0 + 256 * (m1 + 256 * (m2 + 256 * m3)),
          extra := if Gzip.flag_bit flg 2 then some (extra_part.drop 2) else none,
          name := name, comment := comment, extra_flags := xfl, os := osb }
      let st ← Gzip.parse_hcrc flg header st
      Except.ok (header, (⟨st, 0, 0⟩ : BitReaderState))) = _
    rw [h3, parse_opt_cstring_absent]
    show (do
      let (comment, st) ← Gzip.parse_opt_cstring (Gzip.flag_bit flg 4) (ns ++ 0 :: rest)
      let header : Gzip.MemberHeader :=
        { compression_method := cm, flags := flg,
          modification_time := m0 + 256 * (m1 + 256 * (m2 + 256 * m3)),
          extra := if Gzip.flag_bit flg 2 then some (extra_part.drop 2) else none,
          name := none, comment := comment, extra_flags := xfl, os := osb }
      let st ← Gzip.parse_hcrc flg header st
      Except.ok (header, (⟨st, 0, 0⟩ : BitReaderState))) = _
    rw [h4, parse_opt_cstring_invalid ns rest hns hbad]
    rfl

/-- C10 witness: a member with FNAME set (flags `0x08`), no EXTRA, and the
single-byte name `0xFF` (not UTF-8) is rejected with the UTF-8 error. -/
theorem c10_invalid_utf8_name_rejected_witness :
    Gzip.into_deflate_reader
        ([0x1f, 0x8b, 8, 8, 0, 0, 0, 0, 0, 3] ++ [] ++ [0xFF] ++ 0 :: [0x99])
      = .error .invalidUtf8 :=
  (c10_invalid_utf8_name_rejected 8 8 0 0 0 0 0 3 [] [0xFF] [0x99]
    (fun h => absurd h (by decide))
    (fun _ => rfl) (by norm_num) rfl).1 rfl

/-! ## from_lengths: success condition and canonical-key distinctness -/

theorem le_of_max?_some {L : List Nat} {mx : Nat} (h : L.max? = some mx) :
    ∀ b ∈ L, b ≤ mx := by
  rw [List.max?_eq_some_iff (fun a => Nat.le_refl a) (fun a b => max_choice a b)
    (fun a b c => Nat.max_le)] at h
  exact h.2

theorem assign_isOk {T : Type} (tf : Nat → Option T) :
    ∀ (L : List Nat) (i : Nat) (next : Nat → Nat) (acc : List (BitSequence × T)),
      (HuffmanCoding.assign tf L i next acc).isOk = true ↔
        ∀ j (hj : j < L.length), L[j] ≠ 0 → (tf (i + j)).isSome = true := by
  intro L
  induction L with
  | nil =>
    intro i next acc
    simp [HuffmanCoding.assign, Except.isOk, Except.toBool]
  | cons l rest ih =>
    intro i next acc
    by_cases hl : l = 0
    · subst hl
      show (HuffmanCoding.assign tf rest (i + 1) next acc).isOk = true ↔ _
      rw [ih]
      constructor
      · intro h j hj hne
        cases j with
        | zero => simp at hne
        | succ j =>
          have := h j (by simpa using hj) (by simpa using hne)
          rwa [show i + 1 + j = i + (j + 1) from by omega] at this
      · intro h j hj hne
        have := h (j + 1) (by simpa using hj) (by simpa using hne)
        rwa [show i + (j + 1) = i + 1 + j from by omega] at this
    · rw [show HuffmanCoding.assign tf (l :: rest) i next acc
          = if l = 0 then HuffmanCoding.assign tf rest (i + 1) next acc
            else match tf i with
              | none => Except.error Err.invalidToken
              | some t => HuffmanCoding.assign tf rest (i + 1)
                  (fun x => if x = l then next x + 1 else next x)
                  ((BitSequence.new (next l) l, t) :: acc) from rfl,
        if_neg hl]
      cases htf : tf i with
      | none =>
        simp only [Except.isOk, Except.toBool]
        constructor
        · intro h; cases h
        · intro h
          have := h 0 (by simp) (by simpa using hl)
          rw [Nat.add_zero, htf] at this
          cases this
      | some t =>
        rw [ih]
        constructor
        · intro h j hj hne
          cases j with
          | zero => rw [Nat.add_zero, htf]; rfl
          | succ j =>
            have := h j (by simpa using hj) (by simpa using hne)
            rwa [show i + 1 + j = i + (j + 1) from by omega] at this
        · intro h j hj hne
          have := h (j + 1) (by simpa using hj) (by simpa using hne)
          rwa [show i + (j + 1) = i + 1 + j from by omega] at this

theorem sum_Icc_pow_succ (c : Nat → Nat) (l : Nat) :
    ∑ i ∈ Finset.Icc 1 (l + 1), c i * 2 ^ (l + 1 - i)
      = 2 * ∑ i ∈ Finset.Icc 1 l, c i * 2 ^ (l - i) + c (l + 1) := by
  rw [Finset.sum_Icc_succ_top (by omega), Nat.sub_self, pow_zero, mul_one, Finset.mul_sum]
  congr 1
  apply Finset.sum_congr rfl
  intro i hi
  have hi' : i ≤ l := (Finset.mem_Icc.mp hi).2
  rw [show l + 1 - i = (l - i) + 1 from by omega, pow_succ]
  ring

theorem next_code_add_le_sum (c : Nat → Nat) (h0 : c 0 = 0) (l : Nat) :
    HuffmanCoding.next_code c l + c l ≤ ∑ i ∈ Finset.Icc 1 l, c i * 2 ^ (l - i) := by
  induction l with
  | zero => simp [HuffmanCoding.next_code, h0]
  | succ l ih =>
    rw [sum_Icc_pow_succ]
    have hm := Nat.mod_le ((HuffmanCoding.next_code c l + c l) * 2) 65536
    show (HuffmanCoding.next_code c l + c l) * 2 % 65536 + c (l + 1) ≤ _
    omega

theorem sum_pow_scale (M : Nat) (hM : M ≤ 15) :
    ∀ ls : List Nat, (∀ l ∈ ls, l ≤ M) →
      (ls.map (fun l => 2 ^ (15 - l))).sum
        = 2 ^ (15 - M) * (ls.map (fun l => 2 ^ (M - l))).sum := by
  intro ls
  induction ls with
  | nil => simp
  | cons a ls ih =>
    intro h
    have ha : a ≤ M := h a (List.mem_cons_self a ls)
    simp only [List.map_cons, List.sum_cons, Nat.mul_add]
    rw [ih (fun l hl => h l (List.mem_cons_of_mem a hl)),
      show (15 : Nat) - a = (15 - M) + (M - a) from by omega, pow_add]

theorem kraft_list_to_counts (L : List Nat) (hle : ∀ l ∈ L, l ≤ 15) :
    ((L.filter (fun l => l ≠ 0)).map (fun l => 2 ^ (15 - l))).sum
      = ∑ i ∈ Finset.Icc 1 15, L.count i * 2 ^ (15 - i) := by
  induction L with
  | nil => simp
  | cons a L ih =>
    have hale : a ≤ 15 := hle a (List.mem_cons_self a L)
    have ihL := ih (fun l hl => hle l (List.mem_cons_of_mem a hl))
    have hcnt : ∀ i, (a :: L).count i = L.count i + if a = i then 1 else 0 := by
      intro i
      rw [List.count_cons]
      congr 1
      by_cases h : a = i <;> simp [h]
    by_cases ha : a = 0
    · subst ha
      rw [show (0 :: L).filter (fun l => l ≠ 0) = L.filter (fun l => l ≠ 0) from by
        simp [List.filter_cons]]
      rw [ihL]
      apply Finset.sum_congr rfl
      intro i hi
      rw [hcnt i, if_neg (by
        have := (Finset.mem_Icc.mp hi).1
        omega), Nat.add_zero]
    · rw [show (a :: L).filter (fun l => l ≠ 0) = a :: L.filter (fun l => l ≠ 0) from by
        simp [List.filter_cons, ha]]
      simp only [List.map_cons, List.sum_cons]
      rw [ihL]
      have hsplit : ∑ i ∈ Finset.Icc 1 15, (a :: L).count i * 2 ^ (15 - i)
          = ∑ i ∈ Finset.Icc 1 15, L.count i * 2 ^ (15 - i)
            + ∑ i ∈ Finset.Icc 1 15, (if a = i then 1 else 0) * 2 ^ (15 - i) := by
        rw [← Finset.sum_add_distrib]
        apply Finset.sum_congr rfl
        intro i _
        rw [hcnt i]
        ring
      rw [hsplit]
      have hione : ∑ i ∈ Finset.Icc 1 15, (if a = i then 1 else 0) * 2 ^ (15 - i)
          = 2 ^ (15 - a) := by
        have hterm : ∀ i ∈ Finset.Icc 1 15, (if a = i then 1 else 0) * 2 ^ (15 - i)
            = if a = i then 2 ^ (15 - i) else 0 := by
          intro i _
          by_cases h : a = i <;> simp [h]
        rw [Finset.sum_congr rfl hterm,
          Finset.sum_ite_eq (Finset.Icc 1 15) a (fun i => 2 ^ (15 - i)),
          if_pos (Finset.mem_Icc.mpr ⟨by omega, hale⟩)]
      rw [hione]
      omega

theorem sum_counts_le_pow (L : List Nat) (hle : ∀ l ∈ L, l ≤ 15)
    (hk : ∑ i ∈ Finset.Icc 1 15, L.count i * 2 ^ (15 - i) ≤ 2 ^ 15) :
    ∀ l, ∑ i ∈ Finset.Icc 1 l, L.count i * 2 ^ (l - i) ≤ 2 ^ l := by
  have hsmall : ∀ l, l ≤ 15 → ∑ i ∈ Finset.Icc 1 l, L.count i * 2 ^ (l - i) ≤ 2 ^ l := by
    intro l hl
    have hmul : 2 ^ (15 - l) * ∑ i ∈ Finset.Icc 1 l, L.count i * 2 ^ (l - i)
        = ∑ i ∈ Finset.Icc 1 l, L.count i * 2 ^ (15 - i) := by
      rw [Finset.mul_sum]
      apply Finset.sum_congr rfl
      intro i hi
      have hi' : 1 ≤ i ∧ i ≤ l := Finset.mem_Icc.mp hi
      rw [show (15 : Nat) - i = (15 - l) + (l - i) from by omega, pow_add]
      ring
    have hsub : ∑ i ∈ Finset.Icc 1 l, L.count i * 2 ^ (15 - i)
        ≤ ∑ i ∈ Finset.Icc 1 15, L.count i * 2 ^ (15 - i) :=
      Finset.sum_le_sum_of_subset (by
        intro x hx
        have := Finset.mem_Icc.mp hx
        exact Finset.mem_Icc.mpr ⟨this.1, by omega⟩)
    have : 2 ^ (15 - l) * ∑ i ∈ Finset.Icc 1 l, L.count i * 2 ^ (l - i)
        ≤ 2 ^ (15 - l) * 2 ^ l := by
      rw [hmul, ← pow_add, show 15 - l + l = 15 from by omega]
      exact le_trans hsub hk
    exact Nat.le_of_mul_le_mul_left this (Nat.pos_pow_of_pos _ (by norm_num))
  have hbig : ∀ d, ∑ i ∈ Finset.Icc 1 (15 + d), L.count i * 2 ^ (15 + d - i) ≤ 2 ^ (15 + d) := by
    intro d
    induction d with
    | zero => exact hsmall 15 (by omega)
    | succ d ihd =>
      rw [show 15 + (d + 1) = (15 + d) + 1 from by omega, sum_Icc_pow_succ]
      have hz : L.count (15 + d + 1) = 0 := by
        rw [List.count_eq_zero]
        intro hmem
        have := hle _ hmem
        omega
      rw [hz, Nat.add_zero, pow_succ]
      omega
  intro l
  by_cases hl : l ≤ 15
  · exact hsmall l hl
  · have := hbig (l - 15)
    rwa [show 15 + (l - 15) = l from by omega] at this

theorem assign_keys {T : Type} (tf : Nat → Option T) :
    ∀ (L : List Nat) (i : Nat) (next : Nat → Nat) (acc m : List (BitSequence × T)),
      (∀ l, l ≠ 0 → next l + L.count l ≤ 2 ^ l) →
      HuffmanCoding.assign tf L i next acc = .ok m →
      ∃ fresh : List (BitSequence × T), m = fresh ++ acc ∧
        (fresh.map Prod.fst).Nodup ∧
        ∀ p ∈ fresh, p.1.len ≠ 0 ∧ next p.1.len ≤ p.1.bits ∧
          p.1.bits < next p.1.len + L.count p.1.len := by
  intro L
  induction L with
  | nil =>
    intro i next acc m _ hok
    refine ⟨[], ?_, by simp, by simp⟩
    have hacc : Except.ok acc = Except.ok (ε := Err) m := hok
    simp only [Except.ok.injEq] at hacc
    simp [hacc]
  | cons l rest ih =>
    intro i next acc m hbound hok
    by_cases hl : l = 0
    · subst hl
      have hcount : ∀ x, x ≠ 0 → rest.count x = (0 :: rest).count x := by
        intro x hx
        rw [List.count_cons, if_neg (by simp only [beq_iff_eq]; omega), Nat.add_zero]
      obtain ⟨fresh, hm, hnd, hbounds⟩ := ih (i + 1) next acc m
        (fun x hx => (hcount x hx) ▸ hbound x hx) hok
      refine ⟨fresh, hm, hnd, ?_⟩
      intro p hp
      obtain ⟨h1, h2, h3⟩ := hbounds p hp
      exact ⟨h1, h2, by rw [← hcount p.1.len h1]; exact h3⟩
    · rw [show HuffmanCoding.assign tf (l :: rest) i next acc
          = if l = 0 then HuffmanCoding.assign tf rest (i + 1) next acc
            else match tf i with
              | none => Except.error Err.invalidToken
              | some t => HuffmanCoding.assign tf rest (i + 1)
                  (fun x => if x = l then next x + 1 else next x)
                  ((BitSequence.new (next l) l, t) :: acc) from rfl,
        if_neg hl] at hok
      cases htf : tf i with
      | none => rw [htf] at hok; cases hok
      | some t =>
        rw [htf] at hok
        have hcins : (l :: rest).count l = rest.count l + 1 := by
          rw [List.count_cons, if_pos (by simp)]
        have hcother : ∀ x, x ≠ l → (l :: rest).count x = rest.count x := by
          intro x hx
          rw [List.count_cons, if_neg (by simp only [beq_iff_eq]; omega), Nat.add_zero]
        have hnl : next l < 2 ^ l := by
          have := hbound l hl
          rw [hcins] at this
          omega
        have hkey : BitSequence.new (next l) l = ⟨next l, l⟩ := by
          unfold BitSequence.new
          rw [Nat.mod_eq_of_lt hnl]
        have hbump : ∀ x, x ≠ 0 →
            (if x = l then next x + 1 else next x) + rest.count x ≤ 2 ^ x := by
          intro x hx
          by_cases hxl : x = l
          · subst hxl
            have := hbound x hx
            rw [hcins] at this
            rw [if_pos rfl]
            omega
          · rw [if_neg hxl]
            have := hbound x hx
            rw [hcother x hxl] at this
            exact this
        obtain ⟨fresh, hm, hnd, hbounds⟩ := ih (i + 1)
          (fun x => if x = l then next x + 1 else next x)
          ((BitSequence.new (next l) l, t) :: acc) m hbump hok
        refine ⟨fresh ++ [(BitSequence.new (next l) l, t)], by simp [hm], ?_, ?_⟩
        · rw [List.map_append, List.nodup_append]
          refine ⟨hnd, by simp, ?_⟩
          intro x hx hx2
          simp only [List.map_cons, List.map_nil, List.mem_singleton] at hx2
          obtain ⟨p, hp, hpx⟩ := List.mem_map.mp hx
          obtain ⟨h1, h2, h3⟩ := hbounds p hp
          have hpk : p.1 = (⟨next l, l⟩ : BitSequence) := by rw [hpx, hx2, hkey]
          rw [hpk] at h2
          simp only [eq_self_iff_true, if_true] at h2
          omega
        · intro p hp
          rcases List.mem_append.mp hp with hp | hp
          · obtain ⟨h1, h2, h3⟩ := hbounds p hp
            refine ⟨h1, ?_, ?_⟩
            · by_cases hxl : p.1.len = l
              · rw [if_pos hxl] at h2
                rw [hxl] at h2 ⊢
                omega
              · rwa [if_neg hxl] at h2
            · by_cases hxl : p.1.len = l
              · rw [if_pos hxl] at h3
                rw [hxl] at h3 ⊢
                rw [hcins]
                omega
              · rw [if_neg hxl] at h3
                rw [hcother _ hxl]
                exact h3
          · simp only [List.mem_singleton] at hp
            subst hp
            simp only [hkey]
            refine ⟨hl, Nat.le_refl _, ?_⟩
            rw [hcins]
            omega

/-- C2 (amended): for every code-length vector `L` and token converter,
`from_lengths(L)` returns `Ok` iff `L` is non-empty and every index with a
non-zero length converts to a valid token — Kraft's inequality is *not*
checked.  When additionally every entry is at most 15 and the non-zero
lengths satisfy Kraft's inequality (`∑ 2^(max−L[i]) ≤ 2^max`), every
assigned `(codeword, length)` key of the resulting table is distinct. -/
theorem c2_from_lengths_spec {T : Type} (tf : Nat → Option T) (L : List Nat) :
    ((HuffmanCoding.from_lengths tf L).isOk = true ↔
      L ≠ [] ∧ ∀ j (hj : j < L.length), L[j] ≠ 0 → (tf j).isSome = true) ∧
      ((∀ l ∈ L, l ≤ 15) →
        ((L.filter (fun l => l ≠ 0)).map (fun l => 2 ^ (L.max?.getD 0 - l))).sum
            ≤ 2 ^ (L.max?.getD 0) →
        ∀ m, HuffmanCoding.from_lengths tf L = .ok m → (m.map Prod.fst).Nodup) := by
  constructor
  · unfold HuffmanCoding.from_lengths
    cases hmax : L.max? with
    | none =>
      rw [List.max?_eq_none_iff] at hmax
      subst hmax
      simp [Except.isOk, Except.toBool]
    | some mx =>
      rw [assign_isOk]
      constructor
      · intro h
        refine ⟨?_, ?_⟩
        · intro hnil
          subst hnil
          simp at hmax
        · intro j hj hne
          have := h j hj hne
          rwa [Nat.zero_add] at this
      · rintro ⟨-, h⟩ j hj hne
        rw [Nat.zero_add]
        exact h j hj hne
  · intro hle hk m hok
    unfold HuffmanCoding.from_lengths at hok
    cases hmax : L.max? with
    | none => rw [hmax] at hok; cases hok
    | some mx =>
      rw [hmax] at hok
      have hmx15 : mx ≤ 15 := hle mx (List.max?_mem (fun a b => max_choice a b) hmax)
      have hfle : ∀ l ∈ L.filter (fun l => decide (l ≠ 0)), l ≤ mx := fun l hlmem =>
        le_of_max?_some hmax l (List.mem_of_mem_filter hlmem)
      have hgetD : L.max?.getD 0 = mx := by rw [hmax]; rfl
      rw [hgetD] at hk
      have hk15 : ((L.filter (fun l => l ≠ 0)).map (fun l => 2 ^ (15 - l))).sum ≤ 2 ^ 15 := by
        rw [sum_pow_scale mx hmx15 (L.filter (fun l => l ≠ 0)) hfle]
        calc 2 ^ (15 - mx) * ((L.filter (fun l => l ≠ 0)).map (fun l => 2 ^ (mx - l))).sum
            ≤ 2 ^ (15 - mx) * 2 ^ mx := Nat.mul_le_mul_left _ hk
          _ = 2 ^ 15 := by rw [← pow_add]; congr 1; omega
      rw [kraft_list_to_counts L hle] at hk15
      have hS := sum_counts_le_pow L hle hk15
      have hbound : ∀ l, l ≠ 0 →
          HuffmanCoding.next_code (HuffmanCoding.counts L) l + L.count l ≤ 2 ^ l := by
        intro l hzl
        have h1 := next_code_add_le_sum (HuffmanCoding.counts L) rfl l
        have hc : HuffmanCoding.counts L l = L.count l := by
          unfold HuffmanCoding.counts
          rw [if_neg hzl]
        have hsum : ∑ i ∈ Finset.Icc 1 l, HuffmanCoding.counts L i * 2 ^ (l - i)
            = ∑ i ∈ Finset.Icc 1 l, L.count i * 2 ^ (l - i) := by
          apply Finset.sum_congr rfl
          intro i hi
          have hi1 : 1 ≤ i := (Finset.mem_Icc.mp hi).1
          unfold HuffmanCoding.counts
          rw [if_neg (by omega)]
        rw [hc, hsum] at h1
        exact le_trans h1 (hS l)
      obtain ⟨fresh, hm, hnd, -⟩ := assign_keys tf L 0
        (HuffmanCoding.next_code (HuffmanCoding.counts L)) [] m hbound hok
      rw [hm, List.append_nil]
      exact hnd

/-- C2 witness: the vector `[1, 1]` (entries ≤ 15, Kraft sum `2 ≤ 2`):
`from_lengths` succeeds and the two assigned keys `(1, 1)`, `(0, 1)` are
distinct. -/
theorem c2_from_lengths_spec_witness :
    (HuffmanCoding.from_lengths TreeCodeToken.try_from [1, 1]).isOk = true ∧
      (([((⟨1, 1⟩ : BitSequence), TreeCodeToken.length 1),
          ((⟨0, 1⟩ : BitSequence), TreeCodeToken.length 0)] :
        List (BitSequence × TreeCodeToken)).map Prod.fst).Nodup :=
  ⟨(c2_from_lengths_spec TreeCodeToken.try_from [1, 1]).1.mpr
      ⟨by decide, by decide⟩,
    (c2_from_lengths_spec TreeCodeToken.try_from [1, 1]).2 (by decide) (by decide)
      [((⟨1, 1⟩ : BitSequence), TreeCodeToken.length 1),
        ((⟨0, 1⟩ : BitSequence), TreeCodeToken.length 0)] rfl⟩
